import Mathlib

/-!
Verification of the golite read-only SQLite-format reader.

This file gives a shallow embedding of the core of the repository:
the varint codec (`readVarint`), the serial-type codec
(`serialTypeToValue`), the record codec (`ParseRecord`), the value and
record comparators (`compareValues`, `CompareRecords`), the file-header
parser (`ParseHeader`), Go's `sort.Search`, and the three B-tree
operations (`TableSeek`, `IndexSeek`, `TableScan`) together with the
`Filter` combinator.

Modelling conventions:
* Go byte slices are `List Nat`, each element standing for one byte
  (theorems that depend on byte width carry `b < 256` hypotheses).
* Go `int64` is `Int`; where the source relies on 64-bit wrap-around
  the model reduces modulo `2 ^ 64` explicitly and reinterprets with
  `toSigned`.
* Go `float64` is `F64`: an exact rational for finite values plus the
  two infinities and NaN.  `float64(int64)` conversion is
  round-to-nearest, ties-to-even (`f64ofInt`), and `<` / `>` on floats
  is `f64lt` (NaN incomparable), as in IEEE-754.
* Fallible Go functions return `Except Err`; a Go runtime panic that is
  actually reachable is modelled as an explicit `.panic` result.
* The B-tree operations in the source walk pages by page number through
  a pager.  The claims quantify over B-trees whose pages satisfy the
  structural invariants, so pages are modelled as an inductive tree
  (`BPage`): following a child page number becomes recursing into the
  child subtree; the control flow of each operation is translated
  verbatim otherwise.
* Go push-iterators (`func(yield func(Record, error) bool)`) are
  modelled by threading an accumulator of yielded items and a consumer
  `Consumer := List Item → Bool` that decides, from the items emitted so
  far, whether the next `yield` returns true (keep pulling) or false.
-/

namespace Golite

/-! ## Bytes and two's-complement reinterpretation -/

/-- Big-endian byte-list to natural number (`binary.BigEndian.UintNN`). -/
def beNat (l : List Nat) : Nat := l.foldl (fun a b => a * 256 + b) 0

/-- Reinterpret the low `w` bits of `n` as a signed two's-complement
integer (Go's `intN(uintN(...))` casts). -/
def toSigned (w n : Nat) : Int :=
  if n < 2 ^ (w - 1) then (n : Int) else (n : Int) - 2 ^ w

/-- Go `bytes.Compare` / `strings.Compare`: lexicographic byte order,
a strict prefix compares smaller. -/
def bytesCompare : List Nat → List Nat → Int
  | [], [] => 0
  | [], _ :: _ => -1
  | _ :: _, [] => 1
  | a :: as, b :: bs =>
    if a < b then -1 else if b < a then 1 else bytesCompare as bs

/-! ## IEEE-754 binary64 model -/

/-- A Go `float64`: a finite value is carried exactly as
`m * 2 ^ e` (the representation is not required to be canonical; all
comparisons go through `dyLt`); the infinities and NaN are separate
constructors. -/
inductive F64 where
  | finite (m : Int) (e : Int)
  | inf
  | neginf
  | nan
deriving DecidableEq

/-- `m1 * 2 ^ e1 < m2 * 2 ^ e2`, by aligning exponents. -/
def dyLt (m1 e1 m2 e2 : Int) : Bool :=
  if e2 ≤ e1 then m1 * ((2 ^ (e1 - e2).toNat : Nat) : Int) < m2
  else m1 < m2 * ((2 ^ (e2 - e1).toNat : Nat) : Int)

/-- The exact rational value of a finite double `m * 2 ^ e` (used in
specification statements; the executable model compares through
`dyLt`). -/
def dyVal (m e : Int) : ℚ := (m : ℚ) * (2 : ℚ) ^ e

/-- Go `<` on `float64`: standard IEEE comparison, NaN incomparable. -/
def f64lt : F64 → F64 → Bool
  | .finite m1 e1, .finite m2 e2 => dyLt m1 e1 m2 e2
  | .finite _ _, .inf => true
  | .neginf, .finite _ _ => true
  | .neginf, .inf => true
  | _, _ => false

/-- The three-way float comparison performed by `compareValues`
(`if fA < fB ... else if fA > fB ... else 0`). -/
def cmpF64 (a b : F64) : Int :=
  if f64lt a b then -1 else if f64lt b a then 1 else 0

/-- Fuel-driven floor of the base-2 logarithm (`lgGo 64 n` is exact for
every `n < 2 ^ 64`, which covers all `int64` magnitudes). -/
def lgGo : Nat → Nat → Nat
  | 0, _ => 0
  | fuel + 1, n => if n < 2 then 0 else lgGo fuel (n / 2) + 1

/-- Floor of the base-2 logarithm of a 64-bit magnitude. -/
def log2f (n : Nat) : Nat := lgGo 64 n

/-- Round a natural number to 53 significant bits
(nearest, ties to even) — the magnitude part of Go's
`float64(int64)` conversion. -/
def f64roundNat (s : Nat) : Nat :=
  if s < 2 ^ 53 then s
  else
    let e := log2f s - 52
    let q := s / 2 ^ e
    let r := s % 2 ^ e
    let half := 2 ^ (e - 1)
    if half < r then (q + 1) * 2 ^ e
    else if r < half then q * 2 ^ e
    else if q % 2 = 0 then q * 2 ^ e
    else (q + 1) * 2 ^ e

/-- Go's `float64(i)` for an `int64` `i` (round to nearest, ties to
even; every `int64` magnitude is below the overflow threshold).  The
result of this conversion is always an integer, returned as such. -/
def f64ofInt (i : Int) : Int :=
  if 0 ≤ i then (f64roundNat i.toNat : Int)
  else -(f64roundNat (-i).toNat : Int)

/-- `math.Float64frombits`: decode a 64-bit pattern as an IEEE-754
binary64 value. -/
def f64frombits (bits : Nat) : F64 :=
  let s : Nat := bits / 2 ^ 63 % 2
  let e : Nat := bits / 2 ^ 52 % 2 ^ 11
  let m : Nat := bits % 2 ^ 52
  if e = 2047 then
    if m = 0 then (if s = 1 then .neginf else .inf) else .nan
  else if e = 0 then
    .finite (if s = 1 then -(m : Int) else (m : Int)) (-1074)
  else
    let mag : Int := 2 ^ 52 + m
    .finite (if s = 1 then -mag else mag) ((e : Int) - 1075)

/-! ## Values and comparators (`record.go`) -/

/-- A decoded SQLite value (`NullType` / `int64` / `float64` / `string`
/ `[]byte`).  Text carries the raw UTF-8 bytes, exactly as Go's
`string(bytes)` does. -/
inductive Value where
  | null
  | int (i : Int)
  | real (f : F64)
  | text (bytes : List Nat)
  | blob (bytes : List Nat)
deriving DecidableEq

/-- A `Record` is a slice of values. -/
abbrev Rec := List Value

/-- `getTypeRank`: type precedence for comparison. -/
def getTypeRank : Value → Nat
  | .null => 0
  | .int _ => 1
  | .real _ => 1
  | .text _ => 2
  | .blob _ => 3

/-- `toFloat64`: numeric values to `float64` for comparison.  The
catch-all is unreachable: the source only applies it under rank 1. -/
def toF64v : Value → F64
  | .int i => .finite (f64ofInt i) 0
  | .real f => f
  | _ => .finite 0 0

/-- The byte payload of a text value (the source's `a.(string)` type
assertion, reached only at rank 2). -/
def textBytes : Value → List Nat
  | .text s => s
  | _ => []

/-- The byte payload of a blob value (the source's `a.([]byte)` type
assertion, reached only at rank 3). -/
def blobBytes : Value → List Nat
  | .blob s => s
  | _ => []

/-- `compareValues`: rank dispatch first, then in-type comparison,
exactly as in `record.go`. -/
def compareValues (a b : Value) : Int :=
  let ra := getTypeRank a
  let rb := getTypeRank b
  if ra ≠ rb then (if ra < rb then -1 else 1)
  else if ra = 0 then 0
  else if ra = 1 then cmpF64 (toF64v a) (toF64v b)
  else if ra = 2 then bytesCompare (textBytes a) (textBytes b)
  else if ra = 3 then bytesCompare (blobBytes a) (blobBytes b)
  else 0

/-- `CompareRecords`: lexicographic over positions using
`compareValues`; when the shared prefix ties, the shorter record is
smaller.  (The source iterates to `minLen` returning the first non-zero
comparison and then compares lengths; this structural recursion
performs the identical computation.) -/
def CompareRecords : Rec → Rec → Int
  | [], [] => 0
  | [], _ :: _ => -1
  | _ :: _, [] => 1
  | a :: as, b :: bs =>
    if compareValues a b = 0 then CompareRecords as bs else compareValues a b

/-! ## Varint codec (`readVarint`) -/

/-- The loop of `readVarint` over the remaining input, with `fuel` the
number of loop iterations still allowed (starting at 9, so `fuel = 1`
is byte index 8).  Bytes at indices 0–7 contribute their low seven bits
and continue while the high bit is set; byte index 8 contributes all
eight bits.  The accumulator holds the low 64 bits of the Go `int64`
accumulator as a natural number; the second component counts the bytes
consumed from this point on. -/
def rvGo : Nat → List Nat → Nat → Nat × Nat
  | _, [], acc => (acc, 0)
  | 0, _ :: _, acc => (acc, 0)
  | 1, b :: _, acc => ((acc * 256 + b % 256) % 2 ^ 64, 1)
  | fuel + 2, b :: rest, acc =>
    let acc' := (acc * 128 + b % 128) % 2 ^ 64
    if b % 256 < 128 then (acc', 1)
    else
      let r := rvGo (fuel + 1) rest acc'
      (r.1, r.2 + 1)

/-- `readVarint`: returns the decoded value (reassembled as a signed
64-bit integer) and the number of bytes consumed. -/
def readVarint (data : List Nat) : Int × Nat :=
  let r := rvGo 9 data 0
  (toSigned 64 r.1, r.2)

/-! ## Errors -/

/-- The error kinds surfaced by the core (the source uses `fmt.Errorf`
messages; only the kind and the attributed column index matter to the
claims). -/
inductive Err where
  /-- "invalid record: header size … is larger than payload size …" -/
  | headerOverflow
  /-- "data for column `i` extends beyond body" -/
  | bodyBeyond (i : Nat)
  /-- "insufficient data for …" from the serial-type codec -/
  | insufficientData
  /-- "unsupported serial type …" -/
  | unsupportedSerialType (st : Int)
  /-- "invalid record: column `i`: …" wrapping -/
  | column (i : Nat) (e : Err)
  /-- "invalid header size: expected 100 bytes, got …" -/
  | shortHeader
  /-- "invalid SQLite header string" -/
  | invalidMagic
  /-- "unexpected page type … encountered during search/scan" -/
  | unexpectedPageType
  /-- `ErrNotFound` ("record not found") -/
  | notFound
deriving DecidableEq

instance {ε α : Type} [DecidableEq ε] [DecidableEq α] : DecidableEq (Except ε α)
  | .error e, .error f =>
    if h : e = f then .isTrue (by rw [h])
    else .isFalse (by intro c; cases c; exact h rfl)
  | .error _, .ok _ => .isFalse (by intro c; cases c)
  | .ok _, .error _ => .isFalse (by intro c; cases c)
  | .ok a, .ok b =>
    if h : a = b then .isTrue (by rw [h])
    else .isFalse (by intro c; cases c; exact h rfl)

/-! ## Serial-type codec (`serialTypeToValue`) -/

/-- `serialTypeToValue`: decode one value from the record body given
its serial type; returns the value and the bytes consumed.  The blob /
text cases are tested first, then the fixed-width switch, exactly as in
`record.go`. -/
def serialTypeToValue (st : Int) (body : List Nat) : Except Err (Value × Nat) :=
  if 12 ≤ st ∧ st % 2 = 0 then
    let len := ((st - 12) / 2).toNat
    if body.length < len then .error .insufficientData
    else .ok (.blob (body.take len), len)
  else if 13 ≤ st ∧ st % 2 = 1 then
    let len := ((st - 13) / 2).toNat
    if body.length < len then .error .insufficientData
    else .ok (.text (body.take len), len)
  else if st = 0 then .ok (.null, 0)
  else if st = 1 then
    if body.length < 1 then .error .insufficientData
    else .ok (.int (toSigned 8 (beNat (body.take 1))), 1)
  else if st = 2 then
    if body.length < 2 then .error .insufficientData
    else .ok (.int (toSigned 16 (beNat (body.take 2))), 2)
  else if st = 3 then
    if body.length < 3 then .error .insufficientData
    else
      -- the source pads to four bytes with 0xff under a set sign bit
      -- and reinterprets as int32
      let pad : Nat := if 128 ≤ body.headD 0 % 256 then 255 else 0
      .ok (.int (toSigned 32 (pad * 2 ^ 24 + beNat (body.take 3))), 3)
  else if st = 4 then
    if body.length < 4 then .error .insufficientData
    else .ok (.int (toSigned 32 (beNat (body.take 4))), 4)
  else if st = 5 then
    if body.length < 6 then .error .insufficientData
    else
      -- pads to eight bytes with 0xffff under a set sign bit (int64)
      let pad : Nat := if 128 ≤ body.headD 0 % 256 then 65535 else 0
      .ok (.int (toSigned 64 (pad * 2 ^ 48 + beNat (body.take 6))), 6)
  else if st = 6 then
    if body.length < 8 then .error .insufficientData
    else .ok (.int (toSigned 64 (beNat (body.take 8))), 8)
  else if st = 7 then
    if body.length < 8 then .error .insufficientData
    else .ok (.real (f64frombits (beNat (body.take 8))), 8)
  else if st = 8 then .ok (.int 0, 0)
  else if st = 9 then .ok (.int 1, 0)
  else .error (.unsupportedSerialType st)

/-! ## Record codec (`ParseRecord`) -/

/-- The header loop of `ParseRecord`, fuel-driven: read varints from
the header region until it is exhausted; each is one column's serial
type.  `readVarint` consumes at least one byte of a non-empty input, so
fuel `header.length` never runs out when started by
`parseSerialTypes`. -/
def pstGo : Nat → List Nat → List Int
  | _, [] => []
  | 0, _ :: _ => []
  | fuel + 1, b :: rest =>
    let v := readVarint (b :: rest)
    v.1 :: pstGo fuel ((b :: rest).drop v.2)

/-- The header loop of `ParseRecord`: read varints from the header
region until it is exhausted; each is one column's serial type. -/
def parseSerialTypes (header : List Nat) : List Int :=
  pstGo header.length header

/-- The body loop of `ParseRecord`: decode each column at its running
body offset, attributing errors to the column index. -/
def decodeColumns (body : List Nat) : List Int → Nat → Nat → Except Err Rec
  | [], _, _ => .ok []
  | st :: rest, off, i =>
    match serialTypeToValue st (body.drop off) with
    | .error e => .error (.column i e)
    | .ok (v, consumed) =>
      if body.length < off + consumed then .error (.bodyBeyond i)
      else
        match decodeColumns body rest (off + consumed) (i + 1) with
        | .error e => .error e
        | .ok vs => .ok (v :: vs)

/-- The outcome of running `ParseRecord`, including the reachable Go
runtime panic from the header slice expression. -/
inductive PRes where
  | ok (r : Rec)
  | err (e : Err)
  | panic
deriving DecidableEq

/-- `ParseRecord`: leading varint is the inclusive header length; fail
with `headerOverflow` when it exceeds the payload length.  When the
decoded header length is smaller than the varint's own byte count
(including every negative header length), the source's
`data[n:headerSize]` slice expression panics at runtime; this is
modelled by `.panic`. -/
def ParseRecord (data : List Nat) : PRes :=
  let v := readVarint data
  if (data.length : Int) < v.1 then .err .headerOverflow
  else if v.1 < (v.2 : Int) then .panic
  else
    let header := (data.take v.1.toNat).drop v.2
    let body := data.drop v.1.toNat
    match decodeColumns body (parseSerialTypes header) 0 0 with
    | .error e => .err e
    | .ok vs => .ok vs

/-! ## File header parser (`ParseHeader`) -/

/-- The parsed 100-byte file header.  Field widths follow the source:
`pageSize` is the raw big-endian `uint16` at offset 16, the rest are
big-endian `uint32`s at their fixed offsets. -/
structure Header where
  pageSize : Nat
  changeCounter : Nat
  databaseSize : Nat
  freelistTrunk : Nat
  freelistPages : Nat
  schemaCookie : Nat
  schemaFormat : Nat
  defaultCacheSize : Nat
  textEncoding : Nat
  userVersion : Nat
deriving DecidableEq

/-- The magic bytes `"SQLite format 3\x00"`. -/
def magicBytes : List Nat :=
  [83, 81, 76, 105, 116, 101, 32, 102, 111, 114, 109, 97, 116, 32, 51, 0]

/-- Big-endian `uint16` at a byte offset. -/
def u16At (d : List Nat) (off : Nat) : Nat := beNat ((d.drop off).take 2)

/-- Big-endian `uint32` at a byte offset. -/
def u32At (d : List Nat) (off : Nat) : Nat := beNat ((d.drop off).take 4)

/-- `ParseHeader`: exactly 100 bytes, magic prefix, then fixed-offset
field extraction (`part_001`). -/
def ParseHeader (data : List Nat) : Except Err Header :=
  if data.length ≠ 100 then .error .shortHeader
  else if data.take 16 ≠ magicBytes then .error .invalidMagic
  else .ok
    { pageSize := u16At data 16
      changeCounter := u32At data 24
      databaseSize := u32At data 28
      freelistTrunk := u32At data 32
      freelistPages := u32At data 36
      schemaCookie := u32At data 40
      schemaFormat := u32At data 44
      defaultCacheSize := u32At data 48
      textEncoding := u32At data 56
      userVersion := u32At data 60 }

/-! ## Go's `sort.Search` -/

/-- The loop of `sort.Search` with explicit fuel; the interval `[i, j)`
halves each iteration, so fuel `n` (the initial interval width) never
runs out when started by `goSearch`. -/
def gsGo : Nat → (Nat → Bool) → Nat → Nat → Nat
  | 0, _, i, _ => i
  | fuel + 1, f, i, j =>
    if i < j then
      let h := (i + j) / 2
      if f h then gsGo fuel f i h else gsGo fuel f (h + 1) j
    else i

/-- `sort.Search(n, f)`: binary search for the smallest index in
`[0, n)` satisfying `f` (assuming `f` is monotone), returning `n` when
none does. -/
def goSearch (n : Nat) (f : Nat → Bool) : Nat := gsGo n f 0 n

/-! ## B-tree pages

The source walks pages by page number through the pager.  The claims
quantify over B-trees whose pages satisfy the structural invariants of
the format, so a B-tree is modelled as an inductive tree: a parsed page
either is a leaf carrying its cell slice, or an interior page carrying
its cell slice and right-most child.  An interior page's cells plus
right-most pointer are represented as one chain (`TNode` / `INode`)
whose final constructor is the right-most child; `TNode.keys` /
`INode.payloads` recover the cell slice the source binary-searches. -/

/-- A cell of a leaf-table page (`LeafTableCell`): the row identifier
and the parsed record.  (The source also stores the raw payload size,
which none of the operations consult.) -/
structure LeafTableCell where
  rowId : Int
  record : Rec
deriving DecidableEq

instance : Inhabited LeafTableCell := ⟨0, []⟩

mutual
/-- A parsed B-tree page of one of the four kinds. -/
inductive BPage where
  | leafTable (cells : List LeafTableCell)
  | interiorTable (node : TNode)
  | leafIndex (cells : List Rec)
  | interiorIndex (node : INode)
/-- The cells of an interior-table page followed by its right-most
child: `cons child key rest` is one `InteriorTableCell`. -/
inductive TNode where
  | last (right : BPage)
  | cons (child : BPage) (key : Int) (rest : TNode)
/-- The cells of an interior-index page followed by its right-most
child: `cons child payload rest` is one interior-index cell. -/
inductive INode where
  | last (right : BPage)
  | cons (child : BPage) (payload : Rec) (rest : INode)
end

/-- The keys of an interior-table page's cell slice, in cell order. -/
def TNode.keys : TNode → List Int
  | .last _ => []
  | .cons _ k rest => k :: keys rest

/-- The payloads of an interior-index page's cell slice, in cell
order. -/
def INode.payloads : INode → List Rec
  | .last _ => []
  | .cons _ p rest => p :: payloads rest

/-- The child page at cell index `i` of an interior-table page
(`LeftChildPageNum` of cell `i`), or the right-most child when `i` is
past the cells. -/
def selectTN : TNode → Nat → BPage
  | .last right, _ => right
  | .cons child _ rest, i => if i = 0 then child else selectTN rest (i - 1)

/-- The child page at cell index `i` of an interior-index page, or the
right-most child when `i` is past the cells. -/
def selectIN : INode → Nat → BPage
  | .last right, _ => right
  | .cons child _ rest, i => if i = 0 then child else selectIN rest (i - 1)

mutual
/-- All leaf-table cells of a table B-tree in in-order (depth-first
left-to-right) traversal order. -/
def tableCellsP : BPage → List LeafTableCell
  | .leafTable cells => cells
  | .interiorTable node => tableCellsTN node
  | _ => []
/-- In-order leaf-table cells below an interior-table cell chain. -/
def tableCellsTN : TNode → List LeafTableCell
  | .last right => tableCellsP right
  | .cons child _ rest => tableCellsP child ++ tableCellsTN rest
end

/-- `lbOk lb r`: `r` is above the optional strict lower bound `lb`. -/
def lbOk (lb : Option Int) (r : Int) : Bool :=
  match lb with
  | none => true
  | some k => k < r

/-- Leaf-table cells strictly ascending in `rowId`, all above `lb`. -/
def leafSortedLB : Option Int → List LeafTableCell → Bool
  | _, [] => true
  | lb, c :: rest => lbOk lb c.rowId && leafSortedLB (some c.rowId) rest

mutual
/-- The §3 invariants of a table B-tree, with a strict lower bound
threaded through: leaf rowIds strictly ascending; interior keys
strictly ascending and partitioning the subtrees (subtree at cell `i`
holds rows in `(key[i-1], key[i]]`, the right-most subtree rows above
the last key); every page is a table page. -/
def tableValidLB : Option Int → BPage → Bool
  | lb, .leafTable cells => leafSortedLB lb cells
  | lb, .interiorTable node => tnodeValidLB lb node
  | _, _ => false
/-- `tableValidLB` over an interior-table cell chain. -/
def tnodeValidLB : Option Int → TNode → Bool
  | lb, .last right => tableValidLB lb right
  | lb, .cons child k rest =>
    lbOk lb k && tableValidLB lb child &&
      (tableCellsP child).all (fun c => decide (c.rowId ≤ k)) &&
      tnodeValidLB (some k) rest
end

/-- The §3 invariants of a table B-tree. -/
def tableValid (t : BPage) : Bool := tableValidLB none t

/-! ## Iterators

A Go push-iterator yields `(Record, error)` pairs; the consumer's loop
body decides at each `yield` whether to continue.  An `Item` is one
yielded pair; a `Consumer` decides, from the items yielded so far,
whether the producer should keep going (the value `yield` returns). -/

/-- One yielded `(record, error)` pair. -/
abbrev Item := Option Rec × Option Err

/-- A consumer policy: the result of `yield`, as a function of all
items yielded so far. -/
abbrev Consumer := List Item → Bool

/-- A consumer that always keeps pulling. -/
def alwaysPull : Consumer := fun _ => true

/-- Yield one item: append it to the emitted list and ask the consumer
whether to continue. -/
def yieldItem (c : Consumer) (acc : List Item) (it : Item) : List Item × Bool :=
  (acc ++ [it], c (acc ++ [it]))

/-- The table descriptor fields the B-tree engine consults: the index
of the rowid-alias column (`-1` if none).  The root page is passed as
the tree itself. -/
structure TableInfo where
  rowIDColumnIndex : Int
deriving DecidableEq

/-- The rowid-alias adjustment of `TableSeek` / `tableScanPage`
(`part_007`): with a declared alias column, overwrite it with the
cell's rowId; otherwise prepend the rowId as an extra column. -/
def adjustRecord (tbl : TableInfo) (cell : LeafTableCell) : Rec :=
  if tbl.rowIDColumnIndex = -1 then .int cell.rowId :: cell.record
  else cell.record.set tbl.rowIDColumnIndex.toNat (.int cell.rowId)

/-! ## Point seek (`TableSeek`, `Find`) -/

mutual
/-- `TableSeek` (`part_007`): descend interior-table pages by binary
search for the smallest cell with `rowID <= key`, falling through to
the right-most child; on the leaf-table page binary-search for the
rowId and yield the adjusted record of an exact match, nothing
otherwise.  The single `yield`'s return value is ignored by the source,
so the emitted items do not depend on the consumer. -/
def tableSeekP (tbl : TableInfo) (rid : Int) : BPage → List Item
  | .leafTable cells =>
    let i := goSearch cells.length
      (fun k => decide (rid ≤ (cells.getD k default).rowId))
    match cells.get? i with
    | some cell =>
      if cell.rowId = rid then [(some (adjustRecord tbl cell), none)] else []
    | none => []
  | .interiorTable node =>
    let keys := node.keys
    let i := goSearch keys.length (fun k => decide (rid ≤ keys.getD k 0))
    tsAt tbl rid node i
  | _ => [(none, some .unexpectedPageType)]
/-- Descend to the child at cell index `i` (right-most past the end):
the page-number indirection of the source's loop, unrolled
structurally. -/
def tsAt (tbl : TableInfo) (rid : Int) : TNode → Nat → List Item
  | .last right, _ => tableSeekP tbl rid right
  | .cons child _ rest, i =>
    if i = 0 then tableSeekP tbl rid child else tsAt tbl rid rest (i - 1)
end

/-- A `Row` of `database.go`: the row identifier and the record. -/
abbrev Row := Int × Rec

mutual
/-- `Find` (`database.go`): same descent as `TableSeek`, but returns
the matched `Row` or `ErrNotFound`; the alias column is overwritten
only when it is inside the record (`len(record) > RowIDColumnIndex`). -/
def FindP (tbl : TableInfo) (rid : Int) : BPage → Except Err Row
  | .leafTable cells =>
    let i := goSearch cells.length
      (fun k => decide (rid ≤ (cells.getD k default).rowId))
    match cells.get? i with
    | some cell =>
      if cell.rowId = rid then
        let r :=
          if tbl.rowIDColumnIndex ≠ -1 ∧
              tbl.rowIDColumnIndex < (cell.record.length : Int) then
            cell.record.set tbl.rowIDColumnIndex.toNat (.int cell.rowId)
          else cell.record
        .ok (cell.rowId, r)
      else .error .notFound
    | none => .error .notFound
  | .interiorTable node =>
    let keys := node.keys
    let i := goSearch keys.length (fun k => decide (rid ≤ keys.getD k 0))
    findAt tbl rid node i
  | _ => .error .unexpectedPageType
/-- Descend step of `Find`. -/
def findAt (tbl : TableInfo) (rid : Int) : TNode → Nat → Except Err Row
  | .last right, _ => FindP tbl rid right
  | .cons child _ rest, i =>
    if i = 0 then FindP tbl rid child else findAt tbl rid rest (i - 1)
end

/-! ## Key seek (`IndexSeek`) -/

/-- The forward loop on a leaf-index page, starting at the binary
search position: skip payloads shorter than the key, yield payloads
whose key-length prefix compares equal to the key, stop at the first
longer-or-equal-length mismatch or when the consumer stops pulling. -/
def leafIdxLoop (key : Rec) (c : Consumer) : List Rec → List Item → List Item
  | [], acc => acc
  | p :: rest, acc =>
    if p.length < key.length then leafIdxLoop key c rest acc
    else if CompareRecords (p.take key.length) key = 0 then
      match yieldItem c acc (some p, none) with
      | (acc', true) => leafIdxLoop key c rest acc'
      | (acc', false) => acc'
    else acc

mutual
/-- `IndexSeek` (`part_007`): descend interior-index pages by binary
search for the smallest cell with `key <= payload` (record
comparator), falling through to the right-most child; on the
leaf-index page binary-search for the first payload whose key-length
prefix is `>=` the key, then run the forward loop. -/
def indexSeekP (key : Rec) (c : Consumer) : BPage → List Item → List Item
  | .leafIndex cells, acc =>
    let i := goSearch cells.length
      (fun k => decide (0 ≤ CompareRecords ((cells.getD k []).take key.length) key))
    leafIdxLoop key c (cells.drop i) acc
  | .interiorIndex node, acc =>
    let ps := node.payloads
    let i := goSearch ps.length (fun k => decide (CompareRecords key (ps.getD k []) ≤ 0))
    isAt key c node i acc
  | _, acc => (yieldItem c acc (none, some .unexpectedPageType)).1
/-- Descend step of `IndexSeek`. -/
def isAt (key : Rec) (c : Consumer) : INode → Nat → List Item → List Item
  | .last right, _, acc => indexSeekP key c right acc
  | .cons child _ rest, i, acc =>
    if i = 0 then indexSeekP key c child acc else isAt key c rest (i - 1) acc
end

/-- The full emission of `IndexSeek` from the root. -/
def indexSeek (key : Rec) (c : Consumer) (root : BPage) : List Item :=
  indexSeekP key c root []

/-! ## In-order scan (`TableScan`) -/

/-- The leaf loop of `tableScanPage`: yield each cell's adjusted record
in cell order; stop (returning `false`) when the consumer does. -/
def scanLeafLoop (tbl : TableInfo) (c : Consumer) :
    List LeafTableCell → List Item → List Item × Bool
  | [], acc => (acc, true)
  | cell :: rest, acc =>
    match yieldItem c acc (some (adjustRecord tbl cell), none) with
    | (acc', true) => scanLeafLoop tbl c rest acc'
    | (acc', false) => (acc', false)

mutual
/-- `tableScanPage` (`part_007`): depth-first left-to-right traversal.
On a page of unexpected kind the source does `return yield(nil, err)` —
the loop continues into further subtrees whenever the consumer answers
the error item with `true`. -/
def tableScanP (tbl : TableInfo) (c : Consumer) :
    BPage → List Item → List Item × Bool
  | .leafTable cells, acc => scanLeafLoop tbl c cells acc
  | .interiorTable node, acc => tableScanN tbl c node acc
  | _, acc => yieldItem c acc (none, some .unexpectedPageType)
/-- The interior loop of `tableScanPage`: each cell's left child in
cell order, then the right-most child. -/
def tableScanN (tbl : TableInfo) (c : Consumer) :
    TNode → List Item → List Item × Bool
  | .last right, acc => tableScanP tbl c right acc
  | .cons child _ rest, acc =>
    match tableScanP tbl c child acc with
    | (acc', true) => tableScanN tbl c rest acc'
    | (acc', false) => (acc', false)
end

/-- The full emission of `TableScan` from the root. -/
def tableScan (tbl : TableInfo) (c : Consumer) (root : BPage) : List Item :=
  (tableScanP tbl c root []).1

/-! ## `Filter` (`execution.go`) -/

/-- `Filter`: compose a source emission with a predicate
`record → (bool, error)`: stop after forwarding a source error or a
predicate error, yield matching records, honour consumer aborts.  The
source iterator is modelled by the item list it would emit while
pulled. -/
def filterGo (pred : Rec → Bool × Option Err) (c : Consumer) :
    List Item → List Item → List Item
  | [], acc => acc
  | (rec?, err?) :: rest, acc =>
    match err? with
    | some e => (yieldItem c acc (none, some e)).1
    | none =>
      let r := rec?.getD []
      match pred r with
      | (_, some e) => (yieldItem c acc (none, some e)).1
      | (true, none) =>
        match yieldItem c acc (some r, none) with
        | (acc', true) => filterGo pred c rest acc'
        | (acc', false) => acc'
      | (false, none) => filterGo pred c rest acc

/-! ## Derived notions used by the claim statements -/

/-- A value that is not a NaN float (NaN breaks transitivity of the
comparator, see the C5 analysis). -/
def valueNoNaN : Value → Bool
  | .real .nan => false
  | _ => true

/-- A record free of NaN floats. -/
def recNoNaN (r : Rec) : Bool := r.all valueNoNaN

/-- Payloads sorted (non-decreasing) under the record comparator. -/
def recsSortedB : List Rec → Bool
  | [] => true
  | [_] => true
  | a :: b :: rest => decide (CompareRecords a b ≤ 0) && recsSortedB (b :: rest)

/-- The rowIds of a table B-tree in in-order traversal order. -/
def tableRowIds (t : BPage) : List Int := (tableCellsP t).map (fun c => c.rowId)

mutual
/-- All leaf-index payloads of an index B-tree in in-order traversal
order. -/
def indexCellsP : BPage → List Rec
  | .leafIndex cells => cells
  | .interiorIndex node => indexCellsIN node
  | _ => []
/-- In-order leaf-index payloads below an interior-index cell chain. -/
def indexCellsIN : INode → List Rec
  | .last right => indexCellsP right
  | .cons child _ rest => indexCellsP child ++ indexCellsIN rest
end

mutual
/-- The §3 in-order payload sequence of an index B-tree: on an interior
page, each cell's subtree followed by the cell's own payload, then the
right-most subtree. -/
def indexInorder : BPage → List Rec
  | .leafIndex cells => cells
  | .interiorIndex node => indexInorderIN node
  | _ => []
/-- In-order payloads below an interior-index cell chain. -/
def indexInorderIN : INode → List Rec
  | .last right => indexInorder right
  | .cons child p rest => indexInorder child ++ p :: indexInorderIN rest
end

mutual
/-- Every page of the tree is an index page. -/
def isIndexPages : BPage → Bool
  | .leafIndex _ => true
  | .interiorIndex node => isIndexPagesIN node
  | _ => false
/-- `isIndexPages` over an interior-index cell chain. -/
def isIndexPagesIN : INode → Bool
  | .last right => isIndexPages right
  | .cons child _ rest => isIndexPages child && isIndexPagesIN rest
end

/-- The payload's final element is an integer (the rowId). -/
def lastIsInt (p : Rec) : Bool :=
  match p.getLast? with
  | some (.int _) => true
  | _ => false

/-- The §3 invariants of an index B-tree: all pages are index pages,
in-order payloads are monotonically non-decreasing under the record
comparator, and every payload ends in an integer rowId. -/
def indexValid (t : BPage) : Bool :=
  isIndexPages t && recsSortedB (indexInorder t) && (indexInorder t).all lastIsInt

/-- Every item that carries an error is the last item of the list (the
iterator contract: the first error terminates the sequence). -/
def errorsTerminalB : List Item → Bool
  | [] => true
  | [_] => true
  | x :: y :: rest => x.2.isNone && errorsTerminalB (y :: rest)

/-- Sign-extended big-endian decoding of the first `k` bytes — the
specification-side form of the fixed-width integer rows of the §4.2
table. -/
def signExt (k : Nat) (bytes : List Nat) : Int := toSigned (8 * k) (beNat (bytes.take k))

/-- One continuation step of the varint accumulator: shift in the low
seven bits of the next byte, within 64 bits. -/
def f7step (a b : Nat) : Nat := (a * 128 + b % 128) % 2 ^ 64

/-- The 7-bit reassembly of a varint: each byte contributes its low
seven bits, most significant first. -/
def varint7Fold (data : List Nat) : Nat := data.foldl f7step 0

/-- A 100-byte header whose page-size field holds the raw value 1
(which the file format defines to mean a page size of 65536). -/
def hdrRaw1 : List Nat := magicBytes ++ [0, 1] ++ List.replicate 82 0

/-! # Lemmas

Helper lemmas, shared by the claim theorems below. -/

theorem gsGo_spec (f : Nat → Bool) (J : Nat)
    (hmono : ∀ k l, k ≤ l → l < J → f k = true → f l = true) :
    ∀ fuel i j, i ≤ j → j ≤ J → j - i ≤ fuel → (∀ k, k < i → f k = false) →
      i ≤ gsGo fuel f i j ∧ gsGo fuel f i j ≤ j ∧
      (∀ k, k < gsGo fuel f i j → f k = false) ∧
      (gsGo fuel f i j < j → f (gsGo fuel f i j) = true) := by
  intro fuel
  induction fuel with
  | zero =>
    intro i j hij hJ hfuel hinv
    have hji : i = j := by omega
    subst hji
    exact ⟨le_rfl, le_rfl, hinv, fun h => absurd h (lt_irrefl i)⟩
  | succ fuel ih =>
    intro i j hij hJ hfuel hinv
    have hunf : gsGo (fuel + 1) f i j =
        if i < j then
          (if f ((i + j) / 2) = true then gsGo fuel f i ((i + j) / 2)
           else gsGo fuel f ((i + j) / 2 + 1) j)
        else i := rfl
    by_cases hlt : i < j
    · have hm1 : i ≤ (i + j) / 2 := by omega
      have hm2 : (i + j) / 2 < j := by omega
      by_cases hf : f ((i + j) / 2) = true
      · rw [hunf, if_pos hlt, if_pos hf]
        have hrec := ih i ((i + j) / 2) hm1 (by omega) (by omega) hinv
        refine ⟨hrec.1, by have := hrec.2.1; omega, hrec.2.2.1, ?_⟩
        intro _
        rcases Nat.lt_or_ge (gsGo fuel f i ((i + j) / 2)) ((i + j) / 2) with h | h
        · exact hrec.2.2.2 h
        · have heq : gsGo fuel f i ((i + j) / 2) = (i + j) / 2 := by
            have := hrec.2.1
            omega
          rw [heq]
          exact hf
      · rw [hunf, if_pos hlt, if_neg hf]
        have hinv' : ∀ k, k < (i + j) / 2 + 1 → f k = false := by
          intro k hk
          by_cases hki : k < i
          · exact hinv k hki
          · cases hc : f k with
            | false => rfl
            | true =>
              exact absurd (hmono k ((i + j) / 2) (by omega) (by omega) hc) hf
        have hrec := ih ((i + j) / 2 + 1) j (by omega) hJ (by omega) hinv'
        exact ⟨by have := hrec.1; omega, hrec.2.1, hrec.2.2.1, hrec.2.2.2⟩
    · have hji : i = j := by omega
      subst hji
      rw [hunf, if_neg hlt]
      exact ⟨le_rfl, le_rfl, hinv, fun h => absurd h (lt_irrefl i)⟩

theorem goSearch_spec (f : Nat → Bool) (n : Nat)
    (hmono : ∀ k l, k ≤ l → l < n → f k = true → f l = true) :
    goSearch n f ≤ n ∧ (∀ k, k < goSearch n f → f k = false) ∧
      (goSearch n f < n → f (goSearch n f) = true) := by
  have := gsGo_spec f n hmono n 0 n (by omega) le_rfl (by omega) (by omega)
  exact ⟨this.2.1, this.2.2.1, this.2.2.2⟩

theorem bytesCompare_refl : ∀ l, bytesCompare l l = 0 := by
  intro l
  induction l with
  | nil => rfl
  | cons x xs ih => simp [bytesCompare, ih]

theorem bytesCompare_antisym : ∀ a b, bytesCompare b a = -bytesCompare a b := by
  intro a
  induction a with
  | nil => intro b; cases b <;> rfl
  | cons x xs ih =>
    intro b
    cases b with
    | nil => rfl
    | cons y ys =>
      simp only [bytesCompare]
      split_ifs <;> first | omega | exact ih ys

theorem bytesCompare_nil_le : ∀ b, bytesCompare [] b ≤ 0 := by
  intro b
  cases b <;> simp [bytesCompare]

theorem bytesCompare_eq_zero_iff : ∀ a b, bytesCompare a b = 0 ↔ a = b := by
  intro a
  induction a with
  | nil =>
    intro b
    cases b <;> simp [bytesCompare]
  | cons x xs ih =>
    intro b
    cases b with
    | nil => simp [bytesCompare]
    | cons y ys =>
      simp only [bytesCompare, List.cons.injEq]
      split_ifs with h1 h2
      · constructor
        · intro hc; norm_num at hc
        · rintro ⟨he, _⟩; omega
      · constructor
        · intro hc; norm_num at hc
        · rintro ⟨he, _⟩; omega
      · have hxy : x = y := by omega
        subst hxy
        simp [ih ys]

theorem bytesCompare_trans_le :
    ∀ a b c, bytesCompare a b ≤ 0 → bytesCompare b c ≤ 0 → bytesCompare a c ≤ 0 := by
  intro a
  induction a with
  | nil => intro b c _ _; exact bytesCompare_nil_le c
  | cons x xs ih =>
    intro b c h1 h2
    cases b with
    | nil => simp [bytesCompare] at h1
    | cons y ys =>
      cases c with
      | nil => simp [bytesCompare] at h2
      | cons z zs =>
        simp only [bytesCompare] at h1 h2 ⊢
        split_ifs at h1 h2 ⊢ <;> first | omega | skip
        all_goals
          exact ih ys zs h1 h2

theorem dyLt_iff (m1 e1 m2 e2 : Int) :
    dyLt m1 e1 m2 e2 = true ↔ dyVal m1 e1 < dyVal m2 e2 := by
  have h2 : (0:ℚ) < 2 := by norm_num
  have h2z : (2:ℚ) ≠ 0 := by norm_num
  unfold dyLt dyVal
  by_cases h : e2 ≤ e1
  · rw [if_pos h]
    have hsplit : (2:ℚ) ^ e1 = (2:ℚ) ^ (((e1 - e2).toNat : Int)) * (2:ℚ) ^ e2 := by
      rw [← zpow_add₀ h2z]
      congr 1
      omega
    rw [hsplit, ← mul_assoc, mul_lt_mul_right (zpow_pos h2 e2), zpow_natCast]
    simp only [decide_eq_true_eq]
    constructor
    · intro hlt
      have : ((m1 * ((2 ^ (e1 - e2).toNat : Nat) : Int) : Int) : ℚ) < ((m2 : Int) : ℚ) := by
        exact_mod_cast hlt
      push_cast at this
      linarith
    · intro hlt
      have : ((m1 * ((2 ^ (e1 - e2).toNat : Nat) : Int) : Int) : ℚ) < ((m2 : Int) : ℚ) := by
        push_cast
        linarith
      exact_mod_cast this
  · rw [if_neg h]
    have hsplit : (2:ℚ) ^ e2 = (2:ℚ) ^ (((e2 - e1).toNat : Int)) * (2:ℚ) ^ e1 := by
      rw [← zpow_add₀ h2z]
      congr 1
      omega
    rw [hsplit, ← mul_assoc, mul_lt_mul_right (zpow_pos h2 e1), zpow_natCast]
    simp only [decide_eq_true_eq]
    constructor
    · intro hlt
      have : ((m1 : Int) : ℚ) < ((m2 * ((2 ^ (e2 - e1).toNat : Nat) : Int) : Int) : ℚ) := by
        exact_mod_cast hlt
      push_cast at this
      linarith
    · intro hlt
      have : ((m1 : Int) : ℚ) < ((m2 * ((2 ^ (e2 - e1).toNat : Nat) : Int) : Int) : ℚ) := by
        push_cast
        linarith
      exact_mod_cast this

theorem dyLt_false_iff (m1 e1 m2 e2 : Int) :
    dyLt m1 e1 m2 e2 = false ↔ ¬ dyVal m1 e1 < dyVal m2 e2 := by
  rw [← dyLt_iff]
  cases dyLt m1 e1 m2 e2 <;> simp

theorem cmpF64_refl (a : F64) : cmpF64 a a = 0 := by
  cases a with
  | finite m e =>
    have h : dyLt m e m e = false := (dyLt_false_iff m e m e).2 (lt_irrefl _)
    simp [cmpF64, f64lt, h]
  | inf => rfl
  | neginf => rfl
  | nan => rfl

theorem cmpF64_antisym (a b : F64) : cmpF64 b a = -cmpF64 a b := by
  cases a <;> cases b <;> try rfl
  case finite.finite m1 e1 m2 e2 =>
    by_cases h1 : dyLt m2 e2 m1 e1 = true <;> by_cases h2 : dyLt m1 e1 m2 e2 = true
    · exfalso
      rw [dyLt_iff] at h1 h2
      exact absurd h1 (asymm h2)
    · simp [cmpF64, f64lt, h1, h2]
    · simp [cmpF64, f64lt, h1, h2]
    · simp [cmpF64, f64lt, h1, h2]

theorem cmpF64_trans_master (a b c : F64) (ha : a ≠ .nan) (hb : b ≠ .nan) (hc : c ≠ .nan)
    (h1 : cmpF64 a b ≤ 0) (h2 : cmpF64 b c ≤ 0) :
    cmpF64 a c ≤ 0 ∧ ((cmpF64 a b < 0 ∨ cmpF64 b c < 0) → cmpF64 a c < 0) := by
  cases a <;> cases b <;> cases c
  case finite.finite.finite ma ea mb eb mc ec =>
    have hba : ¬ dyVal mb eb < dyVal ma ea := by
      intro hlt
      by_cases hx : dyLt ma ea mb eb = true
      · exact absurd hlt (asymm ((dyLt_iff _ _ _ _).1 hx))
      · have h' := (dyLt_iff mb eb ma ea).2 hlt
        simp [cmpF64, f64lt, hx, h'] at h1
    have hcb : ¬ dyVal mc ec < dyVal mb eb := by
      intro hlt
      by_cases hx : dyLt mb eb mc ec = true
      · exact absurd hlt (asymm ((dyLt_iff _ _ _ _).1 hx))
      · have h' := (dyLt_iff mc ec mb eb).2 hlt
        simp [cmpF64, f64lt, hx, h'] at h2
    have hca : ¬ dyVal mc ec < dyVal ma ea := by
      intro hlt
      have l1 := not_lt.mp hba
      have l2 := not_lt.mp hcb
      linarith
    have h3 : dyLt mc ec ma ea = false := (dyLt_false_iff _ _ _ _).2 hca
    constructor
    · by_cases hy : dyLt ma ea mc ec = true
      · simp [cmpF64, f64lt, hy]
      · simp [cmpF64, f64lt, hy, h3]
    · intro hstrict
      have hlt : dyVal ma ea < dyVal mc ec := by
        rcases hstrict with hs | hs
        · by_cases hx : dyLt ma ea mb eb = true
          · have := (dyLt_iff _ _ _ _).1 hx
            have l2 := not_lt.mp hcb
            linarith
          · have hba' : dyLt mb eb ma ea = false := (dyLt_false_iff _ _ _ _).2 hba
            simp [cmpF64, f64lt, hx, hba'] at hs
        · by_cases hx : dyLt mb eb mc ec = true
          · have := (dyLt_iff _ _ _ _).1 hx
            have l1 := not_lt.mp hba
            linarith
          · have hcb' : dyLt mc ec mb eb = false := (dyLt_false_iff _ _ _ _).2 hcb
            simp [cmpF64, f64lt, hx, hcb'] at hs
      have h4 := (dyLt_iff ma ea mc ec).2 hlt
      simp [cmpF64, f64lt, h4]
  all_goals simp_all [cmpF64, f64lt]

theorem bytesCompare_trans_master (a b c : List Nat)
    (h1 : bytesCompare a b ≤ 0) (h2 : bytesCompare b c ≤ 0) :
    bytesCompare a c ≤ 0 ∧
      ((bytesCompare a b < 0 ∨ bytesCompare b c < 0) → bytesCompare a c < 0) := by
  refine ⟨bytesCompare_trans_le a b c h1 h2, ?_⟩
  intro hs
  rcases lt_or_eq_of_le (bytesCompare_trans_le a b c h1 h2) with h | h
  · exact h
  · exfalso
    have hac : a = c := (bytesCompare_eq_zero_iff a c).1 h
    subst hac
    have hba : bytesCompare b a = -bytesCompare a b := bytesCompare_antisym a b
    have hab0 : bytesCompare a b = 0 := by omega
    have hbc0 : bytesCompare b a = 0 := by omega
    rcases hs with hs | hs <;> omega

theorem getTypeRank_le_three (v : Value) : getTypeRank v ≤ 3 := by
  cases v <;> simp [getTypeRank]

theorem getTypeRank_eq_zero (v : Value) (h : getTypeRank v = 0) : v = .null := by
  cases v <;> simp_all [getTypeRank]

theorem compareValues_rank_lt (a b : Value) (h : getTypeRank a < getTypeRank b) :
    compareValues a b = -1 := by
  simp only [compareValues]
  rw [if_pos (by omega : ¬ getTypeRank a = getTypeRank b), if_pos h]

theorem compareValues_rank_gt (a b : Value) (h : getTypeRank b < getTypeRank a) :
    compareValues a b = 1 := by
  simp only [compareValues]
  rw [if_pos (by omega : ¬ getTypeRank a = getTypeRank b), if_neg (by omega)]

theorem compareValues_num (a b : Value)
    (ha : getTypeRank a = 1) (hb : getTypeRank b = 1) :
    compareValues a b = cmpF64 (toF64v a) (toF64v b) := by
  simp [compareValues, ha, hb]

theorem compareValues_text (a b : Value)
    (ha : getTypeRank a = 2) (hb : getTypeRank b = 2) :
    compareValues a b = bytesCompare (textBytes a) (textBytes b) := by
  simp [compareValues, ha, hb]

theorem compareValues_blob (a b : Value)
    (ha : getTypeRank a = 3) (hb : getTypeRank b = 3) :
    compareValues a b = bytesCompare (blobBytes a) (blobBytes b) := by
  simp [compareValues, ha, hb]

theorem toF64v_ne_nan (v : Value) (h : valueNoNaN v = true) : toF64v v ≠ .nan := by
  cases v with
  | real f => cases f <;> simp_all [toF64v, valueNoNaN]
  | int i => simp [toF64v]
  | null => simp [toF64v]
  | text s => simp [toF64v]
  | blob s => simp [toF64v]

theorem compareValues_refl (v : Value) : compareValues v v = 0 := by
  cases v with
  | null => rfl
  | int i =>
    rw [compareValues_num (.int i) (.int i) rfl rfl]
    exact cmpF64_refl _
  | real f =>
    rw [compareValues_num (.real f) (.real f) rfl rfl]
    exact cmpF64_refl _
  | text s =>
    rw [compareValues_text (.text s) (.text s) rfl rfl]
    exact bytesCompare_refl _
  | blob s =>
    rw [compareValues_blob (.blob s) (.blob s) rfl rfl]
    exact bytesCompare_refl _

theorem compareValues_antisym (a b : Value) :
    compareValues b a = -compareValues a b := by
  rcases Nat.lt_trichotomy (getTypeRank a) (getTypeRank b) with h | h | h
  · rw [compareValues_rank_lt a b h, compareValues_rank_gt b a h]
    rfl
  · have h3 := getTypeRank_le_three a
    have hr : getTypeRank a = 0 ∨ getTypeRank a = 1 ∨ getTypeRank a = 2 ∨
        getTypeRank a = 3 := by omega
    rcases hr with hr | hr | hr | hr
    · have ha := getTypeRank_eq_zero a hr
      have hb := getTypeRank_eq_zero b (by omega)
      subst ha; subst hb; rfl
    · rw [compareValues_num a b hr (by omega), compareValues_num b a (by omega) hr]
      exact cmpF64_antisym _ _
    · rw [compareValues_text a b hr (by omega), compareValues_text b a (by omega) hr]
      exact bytesCompare_antisym _ _
    · rw [compareValues_blob a b hr (by omega), compareValues_blob b a (by omega) hr]
      exact bytesCompare_antisym _ _
  · rw [compareValues_rank_gt a b h, compareValues_rank_lt b a h]

theorem compareValues_trans_master (a b c : Value)
    (ha : valueNoNaN a = true) (hb : valueNoNaN b = true) (hc : valueNoNaN c = true)
    (h1 : compareValues a b ≤ 0) (h2 : compareValues b c ≤ 0) :
    compareValues a c ≤ 0 ∧
      ((compareValues a b < 0 ∨ compareValues b c < 0) → compareValues a c < 0) := by
  rcases Nat.lt_trichotomy (getTypeRank a) (getTypeRank b) with hab | hab | hab
  · rcases Nat.lt_trichotomy (getTypeRank b) (getTypeRank c) with hbc | hbc | hbc
    · rw [compareValues_rank_lt a c (by omega)]
      norm_num
    · rw [compareValues_rank_lt a c (by omega)]
      norm_num
    · rw [compareValues_rank_gt b c hbc] at h2
      norm_num at h2
  · rcases Nat.lt_trichotomy (getTypeRank b) (getTypeRank c) with hbc | hbc | hbc
    · rw [compareValues_rank_lt a c (by omega)]
      norm_num
    · have h3 := getTypeRank_le_three a
      have hr : getTypeRank a = 0 ∨ getTypeRank a = 1 ∨ getTypeRank a = 2 ∨
          getTypeRank a = 3 := by omega
      rcases hr with hr | hr | hr | hr
      · have ea := getTypeRank_eq_zero a hr
        have eb := getTypeRank_eq_zero b (by omega)
        have ec := getTypeRank_eq_zero c (by omega)
        subst ea; subst eb; subst ec
        exact ⟨le_rfl, fun h => h.elim id id⟩
      · rw [compareValues_num a b hr (by omega)] at h1
        rw [compareValues_num b c (by omega) (by omega)] at h2
        rw [compareValues_num a b hr (by omega),
          compareValues_num b c (by omega) (by omega),
          compareValues_num a c hr (by omega)]
        exact cmpF64_trans_master _ _ _ (toF64v_ne_nan a ha) (toF64v_ne_nan b hb)
          (toF64v_ne_nan c hc) h1 h2
      · rw [compareValues_text a b hr (by omega)] at h1
        rw [compareValues_text b c (by omega) (by omega)] at h2
        rw [compareValues_text a b hr (by omega),
          compareValues_text b c (by omega) (by omega),
          compareValues_text a c hr (by omega)]
        exact bytesCompare_trans_master _ _ _ h1 h2
      · rw [compareValues_blob a b hr (by omega)] at h1
        rw [compareValues_blob b c (by omega) (by omega)] at h2
        rw [compareValues_blob a b hr (by omega),
          compareValues_blob b c (by omega) (by omega),
          compareValues_blob a c hr (by omega)]
        exact bytesCompare_trans_master _ _ _ h1 h2
    · rw [compareValues_rank_gt b c hbc] at h2
      norm_num at h2
  · rw [compareValues_rank_gt a b hab] at h1
    norm_num at h1

theorem compareValues_trans_le (a b c : Value)
    (ha : valueNoNaN a = true) (hb : valueNoNaN b = true) (hc : valueNoNaN c = true)
    (h1 : compareValues a b ≤ 0) (h2 : compareValues b c ≤ 0) :
    compareValues a c ≤ 0 :=
  (compareValues_trans_master a b c ha hb hc h1 h2).1

theorem compareValues_trans_eq (a b c : Value)
    (ha : valueNoNaN a = true) (hb : valueNoNaN b = true) (hc : valueNoNaN c = true)
    (h1 : compareValues a b = 0) (h2 : compareValues b c = 0) :
    compareValues a c = 0 := by
  have hf := (compareValues_trans_master a b c ha hb hc (by omega) (by omega)).1
  have hcb : compareValues c b = 0 := by
    have := compareValues_antisym b c
    omega
  have hba : compareValues b a = 0 := by
    have := compareValues_antisym a b
    omega
  have hr := (compareValues_trans_master c b a hc hb ha (by omega) (by omega)).1
  have hanti := compareValues_antisym a c
  omega

/-! ### Record comparator lemmas -/

theorem CompareRecords_nil_le : ∀ b, CompareRecords [] b ≤ 0 := by
  intro b
  cases b <;> simp [CompareRecords]

theorem CompareRecords_refl (a : Rec) : CompareRecords a a = 0 := by
  induction a with
  | nil => rfl
  | cons x xs ih => simp [CompareRecords, compareValues_refl, ih]

theorem CompareRecords_antisym (a b : Rec) :
    CompareRecords b a = -CompareRecords a b := by
  induction a generalizing b with
  | nil => cases b <;> rfl
  | cons x xs ih =>
    cases b with
    | nil => rfl
    | cons y ys =>
      simp only [CompareRecords]
      by_cases h : compareValues x y = 0
      · have h' : compareValues y x = 0 := by
          rw [compareValues_antisym x y]
          omega
        rw [if_pos h, if_pos h']
        exact ih ys
      · have h' : ¬ compareValues y x = 0 := by
          rw [compareValues_antisym x y]
          omega
        rw [if_neg h, if_neg h']
        exact compareValues_antisym x y

theorem CompareRecords_eq_zero_of_nil (b : Rec) (h : CompareRecords [] b = 0) :
    b = [] := by
  cases b with
  | nil => rfl
  | cons y ys => simp [CompareRecords] at h

theorem CompareRecords_trans_master (a b c : Rec)
    (ha : recNoNaN a = true) (hb : recNoNaN b = true) (hc : recNoNaN c = true)
    (h1 : CompareRecords a b ≤ 0) (h2 : CompareRecords b c ≤ 0) :
    CompareRecords a c ≤ 0 ∧
      ((CompareRecords a b < 0 ∨ CompareRecords b c < 0) → CompareRecords a c < 0) := by
  induction a generalizing b c with
  | nil =>
    refine ⟨CompareRecords_nil_le c, ?_⟩
    intro hs
    cases c with
    | nil =>
      exfalso
      have hb0 : b = [] := by
        have hba : CompareRecords b [] = -CompareRecords [] b :=
          CompareRecords_antisym [] b
        have h10 : CompareRecords [] b = 0 := by omega
        exact CompareRecords_eq_zero_of_nil b h10
      subst hb0
      rcases hs with hs | hs <;> simp [CompareRecords] at hs
    | cons z zs => simp [CompareRecords]
  | cons x xs ih =>
    cases b with
    | nil => simp [CompareRecords] at h1
    | cons y ys =>
      cases c with
      | nil => simp [CompareRecords] at h2
      | cons z zs =>
        have hax : valueNoNaN x = true ∧ recNoNaN xs = true := by
          simpa [recNoNaN] using ha
        have hby : valueNoNaN y = true ∧ recNoNaN ys = true := by
          simpa [recNoNaN] using hb
        have hcz : valueNoNaN z = true ∧ recNoNaN zs = true := by
          simpa [recNoNaN] using hc
        simp only [CompareRecords] at h1 h2 ⊢
        by_cases hxy : compareValues x y = 0
        · rw [if_pos hxy] at h1
          by_cases hyz : compareValues y z = 0
          · have hxz : compareValues x z = 0 :=
              compareValues_trans_eq x y z hax.1 hby.1 hcz.1 hxy hyz
            rw [if_pos hyz] at h2
            rw [if_pos hxz]
            have := ih (b := ys) (c := zs) hax.2 hby.2 hcz.2 h1 h2
            refine ⟨this.1, ?_⟩
            intro hs
            apply this.2
            rcases hs with hs | hs
            · rw [if_pos hxy] at hs; exact Or.inl hs
            · rw [if_pos hyz] at hs; exact Or.inr hs
          · rw [if_neg hyz] at h2
            have hm := compareValues_trans_master x y z hax.1 hby.1 hcz.1
              (by omega) h2
            have hlt : compareValues x z < 0 := hm.2 (Or.inr (by omega))
            rw [if_neg (by omega)]
            exact ⟨by omega, fun _ => hlt⟩
        · rw [if_neg hxy] at h1
          have hyz' : compareValues y z ≤ 0 := by
            by_cases hyz : compareValues y z = 0
            · omega
            · rw [if_neg hyz] at h2; exact h2
          have hm := compareValues_trans_master x y z hax.1 hby.1 hcz.1 h1 hyz'
          have hlt : compareValues x z < 0 := hm.2 (Or.inl (by omega))
          rw [if_neg (by omega)]
          exact ⟨by omega, fun _ => hlt⟩

theorem CompareRecords_trans_le (a b c : Rec)
    (ha : recNoNaN a = true) (hb : recNoNaN b = true) (hc : recNoNaN c = true)
    (h1 : CompareRecords a b ≤ 0) (h2 : CompareRecords b c ≤ 0) :
    CompareRecords a c ≤ 0 :=
  (CompareRecords_trans_master a b c ha hb hc h1 h2).1

theorem CompareRecords_take_mono (k : Nat) :
    ∀ a b : Rec, CompareRecords a b ≤ 0 →
      CompareRecords (a.take k) (b.take k) ≤ 0 := by
  induction k with
  | zero => intro a b _; simp [CompareRecords]
  | succ k ih =>
    intro a b h
    cases a with
    | nil => exact CompareRecords_nil_le _
    | cons x xs =>
      cases b with
      | nil => simp [CompareRecords] at h
      | cons y ys =>
        simp only [List.take, CompareRecords] at h ⊢
        by_cases hxy : compareValues x y = 0
        · rw [if_pos hxy] at h ⊢
          exact ih xs ys h
        · rw [if_neg hxy] at h ⊢
          exact h

theorem CompareRecords_shorter (a : Rec) : ∀ (b : Rec), a.length < b.length →
    (∀ i, i < a.length → compareValues (a.getD i .null) (b.getD i .null) = 0) →
    CompareRecords a b = -1 := by
  induction a with
  | nil =>
    intro b hlen _
    cases b with
    | nil => simp at hlen
    | cons y ys => rfl
  | cons x xs ih =>
    intro b hlen hpre
    cases b with
    | nil => simp at hlen
    | cons y ys =>
      have h0 := hpre 0 (by simp)
      simp only [List.getD_cons_zero] at h0
      simp only [CompareRecords, if_pos h0]
      apply ih ys (by simp at hlen ⊢; omega)
      intro i hi
      have := hpre (i + 1) (by simp at hi ⊢; omega)
      simpa using this

theorem CompareRecords_eq_zero_iff (a : Rec) : ∀ (b : Rec),
    CompareRecords a b = 0 ↔ (a.length = b.length ∧
      ∀ i, i < a.length → compareValues (a.getD i .null) (b.getD i .null) = 0) := by
  induction a with
  | nil =>
    intro b
    cases b <;> simp [CompareRecords]
  | cons x xs ih =>
    intro b
    cases b with
    | nil => simp [CompareRecords]
    | cons y ys =>
      simp only [CompareRecords]
      by_cases h : compareValues x y = 0
      · rw [if_pos h, ih ys]
        constructor
        · rintro ⟨hl, hp⟩
          refine ⟨by simp [hl], ?_⟩
          intro i hi
          cases i with
          | zero => simpa using h
          | succ n =>
            simp only [List.getD_cons_succ]
            exact hp n (by simp at hi; omega)
        · rintro ⟨hl, hp⟩
          refine ⟨by simp at hl; omega, ?_⟩
          intro i hi
          have := hp (i + 1) (by simp; omega)
          simpa using this
      · rw [if_neg h]
        constructor
        · intro h0; exact absurd h0 h
        · rintro ⟨_, hp⟩
          exact absurd (by simpa using hp 0 (by simp)) h

theorem cmpF64_fin_lt_iff (m1 e1 m2 e2 : Int) :
    cmpF64 (.finite m1 e1) (.finite m2 e2) < 0 ↔ dyVal m1 e1 < dyVal m2 e2 := by
  simp only [cmpF64, f64lt]
  by_cases h : dyLt m1 e1 m2 e2 = true
  · rw [if_pos h]
    simp [(dyLt_iff _ _ _ _).1 h]
  · rw [if_neg h]
    have h' := (dyLt_false_iff m1 e1 m2 e2).1 (by
      cases hx : dyLt m1 e1 m2 e2
      · rfl
      · exact absurd hx h)
    split_ifs <;> simp [h']

theorem cmpF64_fin_eq_iff (m1 e1 m2 e2 : Int) :
    cmpF64 (.finite m1 e1) (.finite m2 e2) = 0 ↔ dyVal m1 e1 = dyVal m2 e2 := by
  simp only [cmpF64, f64lt]
  by_cases h : dyLt m1 e1 m2 e2 = true
  · rw [if_pos h]
    have := (dyLt_iff _ _ _ _).1 h
    constructor
    · intro hc; norm_num at hc
    · intro he; exact absurd he (ne_of_lt this)
  · have h1 : dyLt m1 e1 m2 e2 = false := by
      cases hx : dyLt m1 e1 m2 e2
      · rfl
      · exact absurd hx h
    rw [if_neg h]
    by_cases h2 : dyLt m2 e2 m1 e1 = true
    · rw [if_pos h2]
      have := (dyLt_iff _ _ _ _).1 h2
      constructor
      · intro hc; norm_num at hc
      · intro he; exact absurd he.symm (ne_of_lt this)
    · rw [if_neg h2]
      have hl1 := (dyLt_false_iff m1 e1 m2 e2).1 h1
      have hl2 := (dyLt_false_iff m2 e2 m1 e1).1 (by
        cases hx : dyLt m2 e2 m1 e1
        · rfl
        · exact absurd hx h2)
      simp only [true_iff]
      exact le_antisymm (not_lt.mp hl2) (not_lt.mp hl1)

theorem dyVal_e_zero (m : Int) : dyVal m 0 = (m : ℚ) := by
  simp [dyVal]

theorem f64ofInt_exact (a : Int) (h : a.natAbs ≤ 2 ^ 53) : f64ofInt a = a := by
  rcases Nat.lt_or_ge a.natAbs (2 ^ 53) with hlt | hge
  · by_cases h0 : 0 ≤ a
    · have ht : a.toNat < 2 ^ 53 := by omega
      unfold f64ofInt f64roundNat
      rw [if_pos h0, if_pos ht]
      omega
    · have ht : (-a).toNat < 2 ^ 53 := by omega
      unfold f64ofInt f64roundNat
      rw [if_neg h0, if_pos ht]
      omega
  · have habs : a = 2 ^ 53 ∨ a = -(2 ^ 53) := by omega
    rcases habs with rfl | rfl <;> decide

/-! ### Varint lemmas -/

theorem rvGo_consumed_le (data : List Nat) :
    ∀ fuel acc, (rvGo fuel data acc).2 ≤ min fuel data.length := by
  induction data with
  | nil => intro fuel acc; cases fuel <;> simp [rvGo]
  | cons b rest ih =>
    intro fuel acc
    match fuel with
    | 0 => simp [rvGo]
    | 1 => simp [rvGo]
    | f + 2 =>
      simp only [rvGo]
      by_cases hb : b % 256 < 128
      · rw [if_pos hb]
        simp only [List.length_cons]
        omega
      · rw [if_neg hb]
        have := ih (f + 1) ((acc * 128 + b % 128) % 2 ^ 64)
        simp only [List.length_cons]
        omega

theorem readVarint_consumed_le (data : List Nat) :
    (readVarint data).2 ≤ min 9 data.length := by
  simpa [readVarint] using rvGo_consumed_le data 9 0

theorem rvGo_stops (k : Nat) : ∀ (data : List Nat) (fuel acc : Nat),
    k < 8 → k + 2 ≤ fuel → (∀ j, j < k → 128 ≤ data.getD j 0 % 256) →
    k < data.length → data.getD k 0 % 256 < 128 →
    rvGo fuel data acc = ((data.take (k + 1)).foldl f7step acc, k + 1) := by
  induction k with
  | zero =>
    intro data fuel acc _ hfuel _ hlen hclear
    cases data with
    | nil => simp at hlen
    | cons b rest =>
      rcases fuel with _ | _ | f
      · omega
      · omega
      · simp only [List.getD_cons_zero] at hclear
        simp [rvGo, if_pos hclear, f7step]
  | succ k ih =>
    intro data fuel acc hk hfuel hhigh hlen hclear
    cases data with
    | nil => simp at hlen
    | cons b rest =>
      rcases fuel with _ | _ | f
      · omega
      · omega
      · have hb : 128 ≤ b % 256 := by
          have := hhigh 0 (by omega)
          simpa using this
        simp only [rvGo, if_neg (by omega : ¬ b % 256 < 128)]
        have hrec := ih rest (f + 1) ((acc * 128 + b % 128) % 2 ^ 64)
          (by omega) (by omega)
          (by intro j hj; have := hhigh (j + 1) (by omega); simpa using this)
          (by simp at hlen; omega)
          (by have := hclear; simpa using this)
        rw [hrec]
        simp [f7step]

theorem rvGo_nine (n : Nat) : ∀ (data : List Nat) (acc : Nat),
    n ≤ 8 → (∀ j, j < n → 128 ≤ data.getD j 0 % 256) → n < data.length →
    rvGo (n + 1) data acc =
      (((data.take n).foldl f7step acc * 256 + data.getD n 0 % 256) % 2 ^ 64, n + 1) := by
  induction n with
  | zero =>
    intro data acc _ _ hlen
    cases data with
    | nil => simp at hlen
    | cons b rest => simp [rvGo]
  | succ n ih =>
    intro data acc hn hhigh hlen
    cases data with
    | nil => simp at hlen
    | cons b rest =>
      have hb : 128 ≤ b % 256 := by
        have := hhigh 0 (by omega)
        simpa using this
      show rvGo (n + 2) (b :: rest) acc = _
      simp only [rvGo, if_neg (by omega : ¬ b % 256 < 128)]
      have hrec := ih rest ((acc * 128 + b % 128) % 2 ^ 64) (by omega)
        (by intro j hj; have := hhigh (j + 1) (by omega); simpa using this)
        (by simp at hlen; omega)
      rw [hrec]
      simp [f7step]

theorem rvGo_exhaust (data : List Nat) : ∀ (fuel acc : Nat),
    data.length < fuel → (∀ b ∈ data, 128 ≤ b % 256) →
    rvGo fuel data acc = (data.foldl f7step acc, data.length) := by
  induction data with
  | nil => intro fuel acc _ _; cases fuel <;> simp [rvGo]
  | cons b rest ih =>
    intro fuel acc hfuel hhigh
    have hb : 128 ≤ b % 256 := hhigh b (by simp)
    rcases fuel with _ | _ | f
    · omega
    · simp at hfuel
    · simp only [rvGo, if_neg (by omega : ¬ b % 256 < 128)]
      have hrec := ih (f + 1) ((acc * 128 + b % 128) % 2 ^ 64)
        (by simp at hfuel ⊢; omega)
        (by intro x hx; exact hhigh x (by simp [hx]))
      rw [hrec]
      simp [f7step]

/-! ### Table B-tree lemmas -/

theorem tsAt_eq (tbl : TableInfo) (rid : Int) :
    ∀ (n : TNode) (i : Nat), tsAt tbl rid n i = tableSeekP tbl rid (selectTN n i)
  | .last right, i => rfl
  | .cons child k rest, i => by
    by_cases h : i = 0
    · subst h; rfl
    · show tsAt tbl rid (.cons child k rest) i = _
      simp only [tsAt, selectTN, if_neg h]
      exact tsAt_eq tbl rid rest (i - 1)

theorem findAt_eq (tbl : TableInfo) (rid : Int) :
    ∀ (n : TNode) (i : Nat), findAt tbl rid n i = FindP tbl rid (selectTN n i)
  | .last right, i => rfl
  | .cons child k rest, i => by
    by_cases h : i = 0
    · subst h; rfl
    · show findAt tbl rid (.cons child k rest) i = _
      simp only [findAt, selectTN, if_neg h]
      exact findAt_eq tbl rid rest (i - 1)

theorem isAt_eq (key : Rec) (c : Consumer) :
    ∀ (n : INode) (i : Nat) (acc : List Item),
      isAt key c n i acc = indexSeekP key c (selectIN n i) acc
  | .last right, i, acc => rfl
  | .cons child p rest, i, acc => by
    by_cases h : i = 0
    · subst h; rfl
    · show isAt key c (.cons child p rest) i acc = _
      simp only [isAt, selectIN, if_neg h]
      exact isAt_eq key c rest (i - 1) acc

theorem selectTN_cells_sub :
    ∀ (n : TNode) (i : Nat) (c : LeafTableCell),
      c ∈ tableCellsP (selectTN n i) → c ∈ tableCellsTN n
  | .last right, i, c => by
    simp only [selectTN, tableCellsTN]
    exact id
  | .cons child k rest, i, c => by
    by_cases h : i = 0
    · subst h
      simp only [selectTN, if_pos rfl, tableCellsTN]
      intro hc
      exact List.mem_append.2 (Or.inl hc)
    · simp only [selectTN, if_neg h, tableCellsTN]
      intro hc
      exact List.mem_append.2 (Or.inr (selectTN_cells_sub rest (i - 1) c hc))

theorem selectTN_valid :
    ∀ (n : TNode) (lb : Option Int) (i : Nat), tnodeValidLB lb n = true →
      ∃ lb', tableValidLB lb' (selectTN n i) = true
  | .last right, lb, i, hv => ⟨lb, hv⟩
  | .cons child k rest, lb, i, hv => by
    simp only [tnodeValidLB, Bool.and_eq_true] at hv
    by_cases h : i = 0
    · subst h
      exact ⟨lb, hv.1.1.2⟩
    · simp only [selectTN, if_neg h]
      exact selectTN_valid rest (some k) (i - 1) hv.2

theorem sizeOf_selectTN :
    ∀ (n : TNode) (i : Nat), sizeOf (selectTN n i) < sizeOf n
  | .last right, i => by
    simp only [selectTN]
    simp_arith
  | .cons child k rest, i => by
    by_cases h : i = 0
    · subst h
      simp only [selectTN, if_pos rfl]
      simp_arith
    · simp only [selectTN, if_neg h]
      have := sizeOf_selectTN rest (i - 1)
      simp_arith
      omega

theorem leafSortedLB_above :
    ∀ (cells : List LeafTableCell) (x : Int),
      leafSortedLB (some x) cells = true → ∀ c ∈ cells, x < c.rowId := by
  intro cells
  induction cells with
  | nil => intro x _ c hc; simp at hc
  | cons c0 rest ih =>
    intro x hv c hc
    simp only [leafSortedLB, Bool.and_eq_true] at hv
    have h0 : x < c0.rowId := by
      have := hv.1
      simpa [lbOk] using this
    rcases List.mem_cons.1 hc with rfl | hc
    · exact h0
    · exact lt_trans h0 (ih c0.rowId hv.2 c hc)

theorem leafSortedLB_weaken :
    ∀ (cells : List LeafTableCell) (lb : Option Int),
      leafSortedLB lb cells = true → leafSortedLB none cells = true := by
  intro cells
  cases cells with
  | nil => intro lb _; rfl
  | cons c0 rest =>
    intro lb hv
    simp only [leafSortedLB, Bool.and_eq_true] at hv ⊢
    exact ⟨rfl, hv.2⟩

theorem leafSortedLB_pairwise :
    ∀ (cells : List LeafTableCell) (lb : Option Int),
      leafSortedLB lb cells = true → ∀ k l, k < l → l < cells.length →
        (cells.getD k default).rowId < (cells.getD l default).rowId := by
  intro cells
  induction cells with
  | nil => intro lb _ k l _ hl; simp at hl
  | cons c0 rest ih =>
    intro lb hv k l hkl hl
    simp only [leafSortedLB, Bool.and_eq_true] at hv
    cases k with
    | zero =>
      have hl' : l - 1 < rest.length := by simp at hl; omega
      have hmem : rest.getD (l - 1) default ∈ rest := by
        rw [List.getD_eq_getElem rest default hl']
        exact List.getElem_mem hl'
      have := leafSortedLB_above rest c0.rowId hv.2 _ hmem
      have hgl : (c0 :: rest).getD l default = rest.getD (l - 1) default := by
        cases l with
        | zero => omega
        | succ l' => simp
      rw [hgl]
      simpa using this
    | succ k' =>
      cases l with
      | zero => omega
      | succ l' =>
        simp only [List.getD_cons_succ]
        exact ih (some c0.rowId) hv.2 k' l' (by omega) (by simp at hl; omega)

mutual
theorem cellsAboveP : ∀ (t : BPage) (x : Int), tableValidLB (some x) t = true →
    ∀ c ∈ tableCellsP t, x < c.rowId
  | .leafTable cells, x, hv => leafSortedLB_above cells x hv
  | .interiorTable node, x, hv => cellsAboveTN node x hv
  | .leafIndex _, x, hv => by simp [tableValidLB] at hv
  | .interiorIndex _, x, hv => by simp [tableValidLB] at hv
theorem cellsAboveTN : ∀ (n : TNode) (x : Int), tnodeValidLB (some x) n = true →
    ∀ c ∈ tableCellsTN n, x < c.rowId
  | .last right, x, hv => cellsAboveP right x hv
  | .cons child k rest, x, hv => by
    simp only [tnodeValidLB, Bool.and_eq_true] at hv
    intro c hc
    rcases List.mem_append.1 hc with hc | hc
    · exact cellsAboveP child x hv.1.1.2 c hc
    · have hk : x < k := by
        have := hv.1.1.1
        simpa [lbOk] using this
      exact lt_trans hk (cellsAboveTN rest k hv.2 c hc)
end

theorem tnodeKeys_above :
    ∀ (n : TNode) (x : Int), tnodeValidLB (some x) n = true →
      ∀ k ∈ n.keys, x < k
  | .last right, x, hv => by simp [TNode.keys]
  | .cons child k0 rest, x, hv => by
    simp only [tnodeValidLB, Bool.and_eq_true] at hv
    intro k hk
    have h0 : x < k0 := by
      have := hv.1.1.1
      simpa [lbOk] using this
    rcases List.mem_cons.1 hk with rfl | hk
    · exact h0
    · exact lt_trans h0 (tnodeKeys_above rest k0 hv.2 k hk)

theorem tnodeKeys_pairwise :
    ∀ (n : TNode) (lb : Option Int), tnodeValidLB lb n = true →
      ∀ p q, p < q → q < n.keys.length →
        n.keys.getD p 0 < n.keys.getD q 0
  | .last right, lb, hv => by simp [TNode.keys]
  | .cons child k0 rest, lb, hv => by
    simp only [tnodeValidLB, Bool.and_eq_true] at hv
    intro p q hpq hq
    cases p with
    | zero =>
      have hq' : q - 1 < rest.keys.length := by
        simp [TNode.keys] at hq
        omega
      have hmem : rest.keys.getD (q - 1) 0 ∈ rest.keys := by
        rw [List.getD_eq_getElem rest.keys 0 hq']
        exact List.getElem_mem hq'
      have := tnodeKeys_above rest k0 hv.2 _ hmem
      have hgl : (TNode.cons child k0 rest).keys.getD q 0 = rest.keys.getD (q - 1) 0 := by
        cases q with
        | zero => omega
        | succ q' => simp [TNode.keys]
      rw [hgl]
      simpa [TNode.keys] using this
    | succ p' =>
      cases q with
      | zero => omega
      | succ q' =>
        simp only [TNode.keys, List.getD_cons_succ]
        exact tnodeKeys_pairwise rest (some k0) hv.2 p' q' (by omega)
          (by simp [TNode.keys] at hq; omega)

theorem mem_getD_of_mem {α : Type} [Inhabited α] (l : List α) (c : α) (hc : c ∈ l) :
    ∃ k, k < l.length ∧ l.getD k default = c := by
  obtain ⟨n, hn, he⟩ := List.mem_iff_getElem.1 hc
  exact ⟨n, hn, by rw [List.getD_eq_getElem l default hn]; exact he⟩

theorem getD_mem {α : Type} [Inhabited α] (l : List α) (k : Nat) (hk : k < l.length) :
    l.getD k default ∈ l := by
  rw [List.getD_eq_getElem l default hk]
  exact List.getElem_mem hk

theorem leafSeek_mono (rid : Int) (cells : List LeafTableCell) (lb : Option Int)
    (hs : leafSortedLB lb cells = true) :
    ∀ k l, k ≤ l → l < cells.length →
      decide (rid ≤ (cells.getD k default).rowId) = true →
      decide (rid ≤ (cells.getD l default).rowId) = true := by
  intro k l hkl hl hk
  simp only [decide_eq_true_eq] at hk ⊢
  rcases Nat.lt_or_ge k l with h | h
  · have := leafSortedLB_pairwise cells lb hs k l h hl
    omega
  · have : k = l := by omega
    subst this
    exact hk

theorem leafSeek_found (rid : Int) (cells : List LeafTableCell) (lb : Option Int)
    (hs : leafSortedLB lb cells = true) (c : LeafTableCell) (hc : c ∈ cells)
    (hr : c.rowId = rid) :
    goSearch cells.length (fun k => decide (rid ≤ (cells.getD k default).rowId)) <
        cells.length ∧
      cells.getD (goSearch cells.length
        (fun k => decide (rid ≤ (cells.getD k default).rowId))) default = c := by
  obtain ⟨k0, hk0, hck⟩ := mem_getD_of_mem cells c hc
  have hspec := goSearch_spec (fun k => decide (rid ≤ (cells.getD k default).rowId))
    cells.length (leafSeek_mono rid cells lb hs)
  set i := goSearch cells.length (fun k => decide (rid ≤ (cells.getD k default).rowId))
    with hi
  have hfk0 : decide (rid ≤ (cells.getD k0 default).rowId) = true := by
    rw [hck, hr]
    simp
  have hik0 : i ≤ k0 := by
    by_contra hcon
    have hb : decide (rid ≤ (cells.getD k0 default).rowId) = false :=
      hspec.2.1 k0 (by omega)
    rw [hfk0] at hb
    exact Bool.noConfusion hb
  have hilen : i < cells.length := by omega
  have hfi : rid ≤ (cells.getD i default).rowId := by
    have hb : decide (rid ≤ (cells.getD i default).rowId) = true := hspec.2.2 hilen
    simpa using hb
  rcases Nat.lt_or_ge i k0 with hlt | hge
  · exfalso
    have := leafSortedLB_pairwise cells lb hs i k0 hlt hk0
    rw [hck, hr] at this
    omega
  · have : i = k0 := by omega
    subst this
    exact ⟨hilen, hck⟩

theorem tsDescend (rid : Int) :
    ∀ (n : TNode) (lb : Option Int) (i : Nat),
      tnodeValidLB lb n = true →
      (∀ p, p < i → p < n.keys.length → n.keys.getD p 0 < rid) →
      (i < n.keys.length → rid ≤ n.keys.getD i 0) →
      ∀ c ∈ tableCellsTN n, c.rowId = rid → c ∈ tableCellsP (selectTN n i)
  | .last right, lb, i, hv, hlow, hhigh => by
    intro c hc _
    simpa [selectTN, tableCellsTN] using hc
  | .cons child k0 rest, lb, i, hv, hlow, hhigh => by
    simp only [tnodeValidLB, Bool.and_eq_true] at hv
    intro c hc hcr
    have hcs : c ∈ tableCellsP child ++ tableCellsTN rest := hc
    rcases List.mem_append.1 hcs with hcc | hcr'
    · by_cases h : i = 0
      · subst h
        simpa [selectTN] using hcc
      · exfalso
        have h0 : k0 < rid := by
          have := hlow 0 (by omega) (by simp [TNode.keys])
          simpa [TNode.keys] using this
        have hle : c.rowId ≤ k0 := by
          have hall := hv.1.2
          simp only [List.all_eq_true, decide_eq_true_eq] at hall
          exact hall c hcc
        omega
    · by_cases h : i = 0
      · subst h
        exfalso
        have hk : rid ≤ k0 := by
          have := hhigh (by simp [TNode.keys])
          simpa [TNode.keys] using this
        have := cellsAboveTN rest k0 hv.2 c hcr'
        omega
      · simp only [selectTN, if_neg h]
        refine tsDescend rid rest (some k0) (i - 1) hv.2 ?_ ?_ c hcr' hcr
        · intro p hp hp'
          have := hlow (p + 1) (by omega) (by simp [TNode.keys]; omega)
          simpa [TNode.keys] using this
        · intro hi
          have hlen : i < (TNode.cons child k0 rest).keys.length := by
            simp [TNode.keys]
            omega
          have := hhigh hlen
          have hgl : (TNode.cons child k0 rest).keys.getD i 0 =
              rest.keys.getD (i - 1) 0 := by
            cases i with
            | zero => omega
            | succ i' => simp [TNode.keys]
          rwa [hgl] at this

theorem get?_eq_some_getD {α : Type} [Inhabited α] (l : List α) (k : Nat)
    (h : k < l.length) : l.get? k = some (l.getD k default) := by
  rw [List.getD_eq_getElem l default h, List.get?_eq_getElem?]
  exact List.getElem?_eq_getElem h

theorem keysSeek_mono (rid : Int) (n : TNode) (lb : Option Int)
    (hv : tnodeValidLB lb n = true) :
    ∀ k l, k ≤ l → l < n.keys.length →
      decide (rid ≤ n.keys.getD k 0) = true →
      decide (rid ≤ n.keys.getD l 0) = true := by
  intro k l hkl hl hk
  simp only [decide_eq_true_eq] at hk ⊢
  rcases Nat.lt_or_ge k l with h | h
  · have := tnodeKeys_pairwise n lb hv k l h hl
    omega
  · have : k = l := by omega
    subst this
    exact hk

theorem seek_spec (tbl : TableInfo) (rid : Int) :
    ∀ (N : Nat) (t : BPage), sizeOf t ≤ N → ∀ lb, tableValidLB lb t = true →
      ((∀ c ∈ tableCellsP t, c.rowId ≠ rid) →
        tableSeekP tbl rid t = [] ∧ FindP tbl rid t = .error .notFound) ∧
      (∀ c ∈ tableCellsP t, c.rowId = rid →
        tableSeekP tbl rid t = [(some (adjustRecord tbl c), none)] ∧
        FindP tbl rid t = .ok (c.rowId,
          if tbl.rowIDColumnIndex ≠ -1 ∧ tbl.rowIDColumnIndex < (c.record.length : Int)
          then c.record.set tbl.rowIDColumnIndex.toNat (.int c.rowId)
          else c.record)) := by
  intro N
  induction N with
  | zero =>
    intro t ht
    exfalso
    have : 0 < sizeOf t := by cases t <;> simp_arith
    omega
  | succ N ih =>
    intro t ht lb hv
    cases t with
    | leafIndex cells => simp [tableValidLB] at hv
    | interiorIndex node => simp [tableValidLB] at hv
    | leafTable cells =>
      have hs : leafSortedLB lb cells = true := hv
      constructor
      · intro hno
        rcases Nat.lt_or_ge (goSearch cells.length
            (fun k => decide (rid ≤ (cells.getD k default).rowId))) cells.length
          with hlt | hge
        · have hget := get?_eq_some_getD cells _ hlt
          have hmem := getD_mem cells _ hlt
          have hne := hno _ hmem
          simp only [tableSeekP, FindP, hget]
          rw [if_neg hne, if_neg hne]
          exact ⟨by trivial, by trivial⟩
        · have hget : cells.get? (goSearch cells.length
              (fun k => decide (rid ≤ (cells.getD k default).rowId))) = none :=
            List.get?_eq_none.2 hge
          simp only [tableSeekP, FindP, hget]
          exact ⟨by trivial, by trivial⟩
      · intro c hc hcr
        obtain ⟨hlt, hgd⟩ := leafSeek_found rid cells lb hs c hc hcr
        have hget := get?_eq_some_getD cells _ hlt
        rw [hgd] at hget
        simp only [tableSeekP, FindP, hget]
        rw [if_pos hcr, if_pos hcr]
        exact ⟨by trivial, by trivial⟩
    | interiorTable node =>
      have hv' : tnodeValidLB lb node = true := hv
      have hspec := goSearch_spec (fun k => decide (rid ≤ node.keys.getD k 0))
        node.keys.length (keysSeek_mono rid node lb hv')
      set i := goSearch node.keys.length (fun k => decide (rid ≤ node.keys.getD k 0))
        with hidef
      have hEqT : tableSeekP tbl rid (.interiorTable node) =
          tableSeekP tbl rid (selectTN node i) := by
        simp only [tableSeekP]
        exact tsAt_eq tbl rid node i
      have hEqF : FindP tbl rid (.interiorTable node) =
          FindP tbl rid (selectTN node i) := by
        simp only [FindP]
        exact findAt_eq tbl rid node i
      have hlow : ∀ p, p < i → p < node.keys.length → node.keys.getD p 0 < rid := by
        intro p hp _
        have hb : decide (rid ≤ node.keys.getD p 0) = false := hspec.2.1 p hp
        simp only [decide_eq_false_iff_not] at hb
        omega
      have hhigh : i < node.keys.length → rid ≤ node.keys.getD i 0 := by
        intro hi
        have hb : decide (rid ≤ node.keys.getD i 0) = true := hspec.2.2 hi
        simpa using hb
      obtain ⟨lb', hvsel⟩ := selectTN_valid node lb i hv'
      have hsize : sizeOf (selectTN node i) ≤ N := by
        have h1 := sizeOf_selectTN node i
        have h2 : sizeOf (BPage.interiorTable node) = 1 + sizeOf node := by
          simp_arith
        omega
      have hrec := ih (selectTN node i) hsize lb' hvsel
      rw [hEqT, hEqF]
      constructor
      · intro hno
        exact hrec.1 (fun c hc => hno c (selectTN_cells_sub node i c hc))
      · intro c hc hcr
        exact hrec.2 c (tsDescend rid node lb i hv' hlow hhigh c hc hcr) hcr

/-! ### Scan lemmas -/

theorem scanLeafLoop_alwaysPull :
    ∀ (cells : List LeafTableCell) (tbl : TableInfo) (acc : List Item),
      scanLeafLoop tbl alwaysPull cells acc =
        (acc ++ cells.map (fun c => (some (adjustRecord tbl c), none)), true) := by
  intro cells
  induction cells with
  | nil => intro tbl acc; simp [scanLeafLoop]
  | cons c rest ih =>
    intro tbl acc
    simp only [scanLeafLoop, yieldItem, alwaysPull]
    rw [ih]
    simp

mutual
theorem tableScanP_alwaysPull :
    ∀ (t : BPage) (tbl : TableInfo) (lb : Option Int) (acc : List Item),
      tableValidLB lb t = true →
      tableScanP tbl alwaysPull t acc =
        (acc ++ (tableCellsP t).map (fun c => (some (adjustRecord tbl c), none)), true)
  | .leafTable cells, tbl, lb, acc, hv => by
    simpa [tableScanP, tableCellsP] using scanLeafLoop_alwaysPull cells tbl acc
  | .interiorTable node, tbl, lb, acc, hv => by
    simp only [tableScanP, tableCellsP]
    exact tableScanN_alwaysPull node tbl lb acc hv
  | .leafIndex _, tbl, lb, acc, hv => by simp [tableValidLB] at hv
  | .interiorIndex _, tbl, lb, acc, hv => by simp [tableValidLB] at hv
theorem tableScanN_alwaysPull :
    ∀ (n : TNode) (tbl : TableInfo) (lb : Option Int) (acc : List Item),
      tnodeValidLB lb n = true →
      tableScanN tbl alwaysPull n acc =
        (acc ++ (tableCellsTN n).map (fun c => (some (adjustRecord tbl c), none)), true)
  | .last right, tbl, lb, acc, hv => tableScanP_alwaysPull right tbl lb acc hv
  | .cons child k rest, tbl, lb, acc, hv => by
    simp only [tnodeValidLB, Bool.and_eq_true] at hv
    have h1 := tableScanP_alwaysPull child tbl lb acc hv.1.1.2
    have h2 := tableScanN_alwaysPull rest tbl (some k)
      (acc ++ (tableCellsP child).map (fun c => (some (adjustRecord tbl c), none)))
      hv.2
    simp only [tableScanN, h1, h2, tableCellsTN, List.map_append, List.append_assoc]
end

theorem chain_append_lt (l1 l2 : List Int) (k : Int) (h1 : List.Chain' (· < ·) l1)
    (h2 : List.Chain' (· < ·) l2) (hb1 : ∀ x ∈ l1, x ≤ k) (hb2 : ∀ y ∈ l2, k < y) :
    List.Chain' (· < ·) (l1 ++ l2) := by
  apply h1.append h2
  intro x hx y hy
  obtain ⟨hne, hxl⟩ := List.mem_getLast?_eq_getLast hx
  have hmx : x ∈ l1 := by rw [hxl]; exact List.getLast_mem hne
  have hmy : y ∈ l2 := List.mem_of_mem_head? hy
  have := hb1 x hmx
  have := hb2 y hmy
  omega

theorem leafSortedLB_chain :
    ∀ (cells : List LeafTableCell) (lb : Option Int),
      leafSortedLB lb cells = true →
      List.Chain' (· < ·) (cells.map (fun c => c.rowId)) := by
  intro cells
  induction cells with
  | nil => intro lb _; simp
  | cons c rest ih =>
    intro lb hv
    simp only [leafSortedLB, Bool.and_eq_true] at hv
    simp only [List.map_cons]
    rw [List.chain'_cons']
    refine ⟨?_, ih (some c.rowId) hv.2⟩
    intro b hb
    have hbm : b ∈ rest.map (fun c => c.rowId) := List.mem_of_mem_head? hb
    obtain ⟨c', hc', rfl⟩ := List.mem_map.1 hbm
    exact leafSortedLB_above rest c.rowId hv.2 c' hc'

mutual
theorem validChainP : ∀ (t : BPage) (lb : Option Int), tableValidLB lb t = true →
    List.Chain' (· < ·) (tableRowIds t)
  | .leafTable cells, lb, hv => leafSortedLB_chain cells lb hv
  | .interiorTable node, lb, hv => validChainTN node lb hv
  | .leafIndex _, lb, hv => by simp [tableValidLB] at hv
  | .interiorIndex _, lb, hv => by simp [tableValidLB] at hv
theorem validChainTN : ∀ (n : TNode) (lb : Option Int), tnodeValidLB lb n = true →
    List.Chain' (· < ·) ((tableCellsTN n).map (fun c => c.rowId))
  | .last right, lb, hv => validChainP right lb hv
  | .cons child k rest, lb, hv => by
    simp only [tnodeValidLB, Bool.and_eq_true] at hv
    simp only [tableCellsTN, List.map_append]
    apply chain_append_lt _ _ k
    · exact validChainP child lb hv.1.1.2
    · exact validChainTN rest (some k) hv.2
    · intro x hx
      obtain ⟨c', hc', rfl⟩ := List.mem_map.1 hx
      have hall := hv.1.2
      simp only [List.all_eq_true, decide_eq_true_eq] at hall
      exact hall c' hc'
    · intro y hy
      obtain ⟨c', hc', rfl⟩ := List.mem_map.1 hy
      exact cellsAboveTN rest k hv.2 c' hc'
end

/-! ### Index seek lemmas -/

theorem CompareRecords_lt_of_lt_le (a b c : Rec)
    (ha : recNoNaN a = true) (hb : recNoNaN b = true) (hc : recNoNaN c = true)
    (h1 : CompareRecords a b < 0) (h2 : CompareRecords b c ≤ 0) :
    CompareRecords a c < 0 :=
  (CompareRecords_trans_master a b c ha hb hc (le_of_lt h1) h2).2 (Or.inl h1)

theorem recNoNaN_take (p : Rec) (k : Nat) (h : recNoNaN p = true) :
    recNoNaN (p.take k) = true := by
  simp only [recNoNaN, List.all_eq_true] at h ⊢
  intro x hx
  exact h x (List.mem_of_mem_take hx)

theorem recsSortedB_tail (p : Rec) (rest : List Rec)
    (h : recsSortedB (p :: rest) = true) : recsSortedB rest = true := by
  cases rest with
  | nil => rfl
  | cons q rest' =>
    simp only [recsSortedB, Bool.and_eq_true] at h
    exact h.2

theorem recsSortedB_head_le (p : Rec) (rest : List Rec)
    (h : recsSortedB (p :: rest) = true)
    (hnn : ∀ q ∈ p :: rest, recNoNaN q = true) :
    ∀ q ∈ rest, CompareRecords p q ≤ 0 := by
  induction rest generalizing p with
  | nil => intro q hq; simp at hq
  | cons q0 rest' ih =>
    intro q hq
    simp only [recsSortedB, Bool.and_eq_true, decide_eq_true_eq] at h
    rcases List.mem_cons.1 hq with rfl | hq
    · exact h.1
    · have hq0 := ih q0 (by
        cases rest' with
        | nil => rfl
        | cons r rest'' => simpa [recsSortedB] using h.2)
        (fun x hx => hnn x (by
          rcases List.mem_cons.1 hx with rfl | hx
          · simp
          · simp [hx])) q hq
      exact CompareRecords_trans_le p q0 q (hnn p (by simp)) (hnn q0 (by simp))
        (hnn q (by simp [hq])) h.1 hq0

theorem recsSortedB_drop (l : List Rec) : ∀ (i : Nat),
    recsSortedB l = true → recsSortedB (l.drop i) = true := by
  induction l with
  | nil => intro i _; simp [recsSortedB]
  | cons p rest ih =>
    intro i h
    cases i with
    | zero => exact h
    | succ i' =>
      simp only [List.drop_succ_cons]
      exact ih i' (recsSortedB_tail p rest h)

theorem filter_eq_filter_drop {α : Type} [Inhabited α] (P : α → Bool) :
    ∀ (i : Nat) (l : List α),
      (∀ k, k < i → k < l.length → P (l.getD k default) = false) →
      l.filter P = (l.drop i).filter P := by
  intro i
  induction i with
  | zero => intro l _; rfl
  | succ i' ih =>
    intro l hlow
    cases l with
    | nil => rfl
    | cons x xs =>
      have hx : P x = false := by
        have := hlow 0 (by omega) (by simp)
        simpa using this
      simp only [List.drop_succ_cons, List.filter_cons, hx, Bool.false_eq_true,
        if_false]
      exact ih xs (fun k hk hk' => by
        have := hlow (k + 1) (by omega) (by simp; omega)
        simpa using this)

theorem leafIdxLoop_sound :
    ∀ (cells : List Rec) (key : Rec) (c : Consumer) (acc : List Item),
      ∃ ps : List Rec, leafIdxLoop key c cells acc = acc ++ ps.map (fun p => (some p, none)) ∧
        ps.Sublist cells ∧
        ∀ p ∈ ps, key.length ≤ p.length ∧ CompareRecords (p.take key.length) key = 0 := by
  intro cells
  induction cells with
  | nil =>
    intro key c acc
    exact ⟨[], by simp [leafIdxLoop], List.Sublist.refl _, by simp⟩
  | cons p rest ih =>
    intro key c acc
    by_cases hshort : p.length < key.length
    · obtain ⟨ps, he, hsub, hprop⟩ := ih key c acc
      refine ⟨ps, ?_, hsub.cons p, hprop⟩
      simpa [leafIdxLoop, hshort] using he
    · by_cases hmatch : CompareRecords (p.take key.length) key = 0
      · cases hc : c (acc ++ [(some p, none)]) with
        | true =>
          obtain ⟨ps, he, hsub, hprop⟩ := ih key c (acc ++ [(some p, none)])
          refine ⟨p :: ps, ?_, hsub.cons₂ p, ?_⟩
          · simp only [leafIdxLoop, if_neg hshort, if_pos hmatch, yieldItem, hc]
            rw [he]
            simp
          · intro q hq
            rcases List.mem_cons.1 hq with rfl | hq
            · exact ⟨by omega, hmatch⟩
            · exact hprop q hq
        | false =>
          refine ⟨[p], ?_, (List.nil_sublist rest).cons₂ p, ?_⟩
          · simp [leafIdxLoop, if_neg hshort, if_pos hmatch, yieldItem, hc]
          · intro q hq
            rcases List.mem_cons.1 hq with rfl | hq
            · exact ⟨by omega, hmatch⟩
            · simp at hq
      · refine ⟨[], ?_, List.nil_sublist _, by simp⟩
        simp [leafIdxLoop, if_neg hshort, if_neg hmatch]

mutual
theorem indexSeekP_sound : ∀ (t : BPage) (key : Rec) (c : Consumer) (acc : List Item),
    ∃ items : List Item, indexSeekP key c t acc = acc ++ items ∧
      ∀ it ∈ items, ∀ p, it.1 = some p →
        key.length ≤ p.length ∧ CompareRecords (p.take key.length) key = 0
  | .leafIndex cells, key, c, acc => by
    obtain ⟨ps, he, _, hprop⟩ := leafIdxLoop_sound
      (cells.drop (goSearch cells.length
        (fun k => decide (0 ≤ CompareRecords ((cells.getD k []).take key.length) key))))
      key c acc
    refine ⟨ps.map (fun p => (some p, none)), ?_, ?_⟩
    · simpa [indexSeekP] using he
    · intro it hit p hp
      obtain ⟨q, hq, rfl⟩ := List.mem_map.1 hit
      simp only [Option.some.injEq] at hp
      subst hp
      exact hprop q hq
  | .interiorIndex node, key, c, acc => by
    simp only [indexSeekP]
    rw [isAt_eq]
    exact isAt_sound' node _ key c acc
  | .leafTable _, key, c, acc =>
    ⟨[(none, some .unexpectedPageType)], by simp [indexSeekP, yieldItem], by simp⟩
  | .interiorTable _, key, c, acc =>
    ⟨[(none, some .unexpectedPageType)], by simp [indexSeekP, yieldItem], by simp⟩
theorem isAt_sound' : ∀ (n : INode) (i : Nat) (key : Rec) (c : Consumer) (acc : List Item),
    ∃ items : List Item, indexSeekP key c (selectIN n i) acc = acc ++ items ∧
      ∀ it ∈ items, ∀ p, it.1 = some p →
        key.length ≤ p.length ∧ CompareRecords (p.take key.length) key = 0
  | .last right, i, key, c, acc => indexSeekP_sound right key c acc
  | .cons child p0 rest, i, key, c, acc => by
    by_cases h : i = 0
    · subst h
      exact indexSeekP_sound child key c acc
    · simp only [selectIN, if_neg h]
      exact isAt_sound' rest (i - 1) key c acc
end

theorem recsSortedB_pairwise :
    ∀ (cells : List Rec), recsSortedB cells = true →
      (∀ p ∈ cells, recNoNaN p = true) →
      ∀ k l, k < l → l < cells.length →
        CompareRecords (cells.getD k []) (cells.getD l []) ≤ 0 := by
  intro cells
  induction cells with
  | nil => intro _ _ k l _ hl; simp at hl
  | cons p rest ih =>
    intro hsort hnn k l hkl hl
    cases k with
    | zero =>
      have hl' : l - 1 < rest.length := by simp at hl; omega
      have hmem : rest.getD (l - 1) [] ∈ rest := by
        rw [List.getD_eq_getElem rest [] hl']
        exact List.getElem_mem hl'
      have := recsSortedB_head_le p rest hsort hnn _ hmem
      have hgl : (p :: rest).getD l [] = rest.getD (l - 1) [] := by
        cases l with
        | zero => omega
        | succ l' => simp
      rw [hgl]
      simpa using this
    | succ k' =>
      cases l with
      | zero => omega
      | succ l' =>
        simp only [List.getD_cons_succ]
        exact ih (recsSortedB_tail p rest hsort) (fun q hq => hnn q (by simp [hq]))
          k' l' (by omega) (by simp at hl; omega)

theorem leafIdxLoop_exact :
    ∀ (s : List Rec) (key : Rec) (acc : List Item),
      (∀ p ∈ s, key.length ≤ p.length) →
      (∀ p ∈ s, recNoNaN p = true) → recNoNaN key = true →
      recsSortedB s = true →
      (∀ p ∈ s, 0 ≤ CompareRecords (p.take key.length) key) →
      leafIdxLoop key alwaysPull s acc =
        acc ++ (s.filter
          (fun p => decide (CompareRecords (p.take key.length) key = 0))).map
          (fun p => (some p, none)) := by
  intro s
  induction s with
  | nil => intro key acc _ _ _ _ _; simp [leafIdxLoop]
  | cons p rest ih =>
    intro key acc hlen hnn hknn hsort hge
    have hplen : ¬ p.length < key.length := by
      have := hlen p (by simp)
      omega
    by_cases hmatch : CompareRecords (p.take key.length) key = 0
    · simp only [leafIdxLoop, if_neg hplen, if_pos hmatch, yieldItem, alwaysPull]
      rw [ih key (acc ++ [(some p, none)]) (fun q hq => hlen q (by simp [hq]))
        (fun q hq => hnn q (by simp [hq])) hknn (recsSortedB_tail p rest hsort)
        (fun q hq => hge q (by simp [hq]))]
      simp [List.filter_cons, hmatch]
    · have hrest : ∀ q ∈ rest, ¬ CompareRecords (q.take key.length) key = 0 := by
        intro q hq
        have h1 : CompareRecords p q ≤ 0 :=
          recsSortedB_head_le p rest hsort hnn q hq
        have h2 : CompareRecords (p.take key.length) (q.take key.length) ≤ 0 :=
          CompareRecords_take_mono key.length p q h1
        have hp0 : 0 < CompareRecords (p.take key.length) key := by
          have := hge p (by simp)
          omega
        have hflip : CompareRecords key (p.take key.length) < 0 := by
          have := CompareRecords_antisym (p.take key.length) key
          omega
        have hklt : CompareRecords key (q.take key.length) < 0 :=
          CompareRecords_lt_of_lt_le key (p.take key.length) (q.take key.length)
            hknn (recNoNaN_take p key.length (hnn p (by simp)))
            (recNoNaN_take q key.length (hnn q (by simp [hq]))) hflip h2
        have := CompareRecords_antisym key (q.take key.length)
        omega
      simp only [leafIdxLoop, if_neg hplen, if_neg hmatch]
      have hfil : (p :: rest).filter
          (fun q => decide (CompareRecords (q.take key.length) key = 0)) = [] := by
        rw [List.filter_eq_nil_iff]
        intro q hq
        rcases List.mem_cons.1 hq with rfl | hq
        · simpa using hmatch
        · simpa using hrest q hq
      rw [hfil]
      simp

theorem indexSeek_leaf_exact (key : Rec) (cells : List Rec)
    (hlen : ∀ p ∈ cells, key.length ≤ p.length)
    (hnn : ∀ p ∈ cells, recNoNaN p = true) (hknn : recNoNaN key = true)
    (hsorted : recsSortedB cells = true) :
    indexSeek key alwaysPull (.leafIndex cells) =
      (cells.filter
        (fun p => decide (CompareRecords (p.take key.length) key = 0))).map
        (fun p => (some p, none)) := by
  have hmono : ∀ k l, k ≤ l → l < cells.length →
      decide (0 ≤ CompareRecords ((cells.getD k []).take key.length) key) = true →
      decide (0 ≤ CompareRecords ((cells.getD l []).take key.length) key) = true := by
    intro k l hkl hl hk
    simp only [decide_eq_true_eq] at hk ⊢
    rcases Nat.lt_or_ge k l with h | h
    · have hkm : cells.getD k [] ∈ cells := by
        rw [List.getD_eq_getElem cells [] (by omega)]
        exact List.getElem_mem (by omega)
      have hlm : cells.getD l [] ∈ cells := by
        rw [List.getD_eq_getElem cells [] hl]
        exact List.getElem_mem hl
      have hpq := recsSortedB_pairwise cells hsorted hnn k l h hl
      have htk := CompareRecords_take_mono key.length _ _ hpq
      have hflip : CompareRecords key ((cells.getD k []).take key.length) ≤ 0 := by
        have := CompareRecords_antisym ((cells.getD k []).take key.length) key
        omega
      have := CompareRecords_trans_le key
        ((cells.getD k []).take key.length) ((cells.getD l []).take key.length)
        hknn (recNoNaN_take _ key.length (hnn _ hkm))
        (recNoNaN_take _ key.length (hnn _ hlm)) hflip htk
      have := CompareRecords_antisym key ((cells.getD l []).take key.length)
      omega
    · have : k = l := by omega
      subst this
      exact hk
  have hspec := goSearch_spec
    (fun k => decide (0 ≤ CompareRecords ((cells.getD k []).take key.length) key))
    cells.length hmono
  set i := goSearch cells.length
    (fun k => decide (0 ≤ CompareRecords ((cells.getD k []).take key.length) key))
    with hidef
  have hstep : indexSeek key alwaysPull (.leafIndex cells) =
      leafIdxLoop key alwaysPull (cells.drop i) [] := by
    simp only [indexSeek, indexSeekP]
  rw [hstep]
  rw [leafIdxLoop_exact (cells.drop i) key []
    (fun q hq => hlen q (List.mem_of_mem_drop hq))
    (fun q hq => hnn q (List.mem_of_mem_drop hq)) hknn
    (recsSortedB_drop cells i hsorted) ?hge]
  case hge =>
    intro q hq
    obtain ⟨j, hj, he⟩ := List.mem_iff_getElem.1 hq
    have hij : i + j < cells.length := by
      simp [List.length_drop] at hj
      omega
    have hq' : q = cells.getD (i + j) [] := by
      rw [List.getD_eq_getElem cells [] hij, ← List.getElem_drop cells]
      · exact he.symm
    have hpi : decide (0 ≤ CompareRecords ((cells.getD i []).take key.length) key)
        = true := hspec.2.2 (by omega)
    have hpl := hmono i (i + j) (by omega) hij hpi
    rw [hq']
    simpa using hpl
  have hdropfil := filter_eq_filter_drop
    (fun p => decide (CompareRecords (p.take key.length) key = 0)) i cells ?hlow
  case hlow =>
    intro k hk hk'
    have hb : decide (0 ≤ CompareRecords ((cells.getD k []).take key.length) key)
        = false := hspec.2.1 k hk
    simp only [decide_eq_false_iff_not, not_le] at hb
    simp only [decide_eq_false_iff_not]
    intro hc
    rw [show (cells.getD k default) = cells.getD k [] from rfl] at hc
    omega
  rw [← hdropfil]
  simp

/-! ### Iterator error-termination lemmas -/

theorem errorsTerminalB_singleton (it : Item) : errorsTerminalB [it] = true := rfl

theorem errorsTerminalB_of_all_none :
    ∀ (items : List Item), (∀ it ∈ items, it.2 = none) → errorsTerminalB items = true := by
  intro items
  induction items with
  | nil => intro _; rfl
  | cons x rest ih =>
    intro h
    cases rest with
    | nil => rfl
    | cons y rest' =>
      simp only [errorsTerminalB, Bool.and_eq_true]
      refine ⟨?_, ih (fun it hit => h it (by simp [hit]))⟩
      have := h x (by simp)
      simp [this]

theorem errorsTerminalB_cons_none (x : Item) (hx : x.2 = none) :
    ∀ (items : List Item), errorsTerminalB items = true →
      errorsTerminalB (x :: items) = true := by
  intro items h
  cases items with
  | nil => rfl
  | cons y rest =>
    simp only [errorsTerminalB, Bool.and_eq_true]
    exact ⟨by simp [hx], h⟩

mutual
theorem tableSeekP_shape : ∀ (t : BPage) (tbl : TableInfo) (rid : Int),
    tableSeekP tbl rid t = [] ∨ ∃ it, tableSeekP tbl rid t = [it]
  | .leafTable cells, tbl, rid => by
    simp only [tableSeekP]
    rcases hget : cells.get? (goSearch cells.length
        (fun k => decide (rid ≤ (cells.getD k default).rowId))) with _ | cell
    · exact Or.inl rfl
    · by_cases h : cell.rowId = rid
      · refine Or.inr ⟨(some (adjustRecord tbl cell), none), ?_⟩
        show (if cell.rowId = rid then [(some (adjustRecord tbl cell), none)]
          else []) = _
        rw [if_pos h]
      · refine Or.inl ?_
        show (if cell.rowId = rid then [(some (adjustRecord tbl cell), none)]
          else []) = []
        rw [if_neg h]
  | .interiorTable node, tbl, rid => by
    simp only [tableSeekP]
    rw [tsAt_eq]
    exact tableSeekP_shape' node _ tbl rid
  | .leafIndex _, tbl, rid => Or.inr ⟨_, rfl⟩
  | .interiorIndex _, tbl, rid => Or.inr ⟨_, rfl⟩
theorem tableSeekP_shape' : ∀ (n : TNode) (i : Nat) (tbl : TableInfo) (rid : Int),
    tableSeekP tbl rid (selectTN n i) = [] ∨
      ∃ it, tableSeekP tbl rid (selectTN n i) = [it]
  | .last right, i, tbl, rid => tableSeekP_shape right tbl rid
  | .cons child k rest, i, tbl, rid => by
    by_cases h : i = 0
    · subst h
      exact tableSeekP_shape child tbl rid
    · simp only [selectTN, if_neg h]
      exact tableSeekP_shape' rest (i - 1) tbl rid
end

theorem tableSeekP_errsTerminal (t : BPage) (tbl : TableInfo) (rid : Int) :
    errorsTerminalB (tableSeekP tbl rid t) = true := by
  rcases tableSeekP_shape t tbl rid with h | ⟨it, h⟩ <;> rw [h] <;> rfl

mutual
theorem indexSeekP_errsTerminal :
    ∀ (t : BPage) (key : Rec) (c : Consumer) (acc : List Item),
      ∃ items : List Item, indexSeekP key c t acc = acc ++ items ∧
        errorsTerminalB items = true
  | .leafIndex cells, key, c, acc => by
    obtain ⟨ps, he, _, _⟩ := leafIdxLoop_sound
      (cells.drop (goSearch cells.length
        (fun k => decide (0 ≤ CompareRecords ((cells.getD k []).take key.length) key))))
      key c acc
    refine ⟨ps.map (fun p => (some p, none)), ?_, ?_⟩
    · simpa [indexSeekP] using he
    · exact errorsTerminalB_of_all_none _ (by
        intro it hit
        obtain ⟨q, _, rfl⟩ := List.mem_map.1 hit
        rfl)
  | .interiorIndex node, key, c, acc => by
    simp only [indexSeekP]
    rw [isAt_eq]
    exact indexSeekP_errsTerminal' node _ key c acc
  | .leafTable _, key, c, acc =>
    ⟨[(none, some .unexpectedPageType)], by simp [indexSeekP, yieldItem], rfl⟩
  | .interiorTable _, key, c, acc =>
    ⟨[(none, some .unexpectedPageType)], by simp [indexSeekP, yieldItem], rfl⟩
theorem indexSeekP_errsTerminal' :
    ∀ (n : INode) (i : Nat) (key : Rec) (c : Consumer) (acc : List Item),
      ∃ items : List Item, indexSeekP key c (selectIN n i) acc = acc ++ items ∧
        errorsTerminalB items = true
  | .last right, i, key, c, acc => indexSeekP_errsTerminal right key c acc
  | .cons child p0 rest, i, key, c, acc => by
    by_cases h : i = 0
    · subst h
      exact indexSeekP_errsTerminal child key c acc
    · simp only [selectIN, if_neg h]
      exact indexSeekP_errsTerminal' rest (i - 1) key c acc
end

theorem filterGo_errsTerminal :
    ∀ (input : List Item) (pred : Rec → Bool × Option Err) (c : Consumer)
      (acc : List Item),
      ∃ items : List Item, filterGo pred c input acc = acc ++ items ∧
        errorsTerminalB items = true := by
  intro input
  induction input with
  | nil => intro pred c acc; exact ⟨[], by simp [filterGo], rfl⟩
  | cons x rest ih =>
    intro pred c acc
    rcases x with ⟨rec?, err?⟩
    cases err? with
    | some e =>
      exact ⟨[(none, some e)], by simp [filterGo, yieldItem], rfl⟩
    | none =>
      rcases hp : pred (rec?.getD []) with ⟨matches?, perr?⟩
      cases perr? with
      | some e =>
        exact ⟨[(none, some e)], by simp [filterGo, yieldItem, hp], rfl⟩
      | none =>
        cases matches? with
        | true =>
          cases hc : c (acc ++ [(some (rec?.getD []), none)]) with
          | true =>
            obtain ⟨items, he, hterm⟩ := ih pred c (acc ++ [(some (rec?.getD []), none)])
            refine ⟨(some (rec?.getD []), none) :: items, ?_, ?_⟩
            · simp only [filterGo, hp, yieldItem, hc]
              rw [he]
              simp
            · exact errorsTerminalB_cons_none _ rfl items hterm
          | false =>
            exact ⟨[(some (rec?.getD []), none)],
              by simp [filterGo, yieldItem, hp, hc], rfl⟩
        | false =>
          obtain ⟨items, he, hterm⟩ := ih pred c acc
          exact ⟨items, by simp only [filterGo, hp]; exact he, hterm⟩

/-! ### Remaining helper lemmas -/

theorem adjustRecord_getD (tbl : TableInfo) (cell : LeafTableCell)
    (hpos : 0 ≤ tbl.rowIDColumnIndex)
    (hlt : tbl.rowIDColumnIndex.toNat < cell.record.length) :
    (adjustRecord tbl cell).getD tbl.rowIDColumnIndex.toNat .null = .int cell.rowId := by
  unfold adjustRecord
  rw [if_neg (by omega)]
  have hlen : tbl.rowIDColumnIndex.toNat <
      (cell.record.set tbl.rowIDColumnIndex.toNat (.int cell.rowId)).length := by
    simpa using hlt
  rw [List.getD_eq_getElem _ _ hlen]
  exact List.getElem_set_self ..

theorem toSigned_pad3 (b0 b1 b2 : Nat) (h0 : b0 < 256) (h1 : b1 < 256)
    (h2 : b2 < 256) :
    toSigned 32 ((if 128 ≤ b0 % 256 then 255 else 0) * 2 ^ 24 + beNat [b0, b1, b2]) =
      toSigned 24 (beNat [b0, b1, b2]) := by
  have hb : beNat [b0, b1, b2] = (b0 * 256 + b1) * 256 + b2 := by
    simp [beNat]
  rw [hb, Nat.mod_eq_of_lt h0]
  unfold toSigned
  split_ifs <;> omega

theorem toSigned_pad5 (b0 b1 b2 b3 b4 b5 : Nat) (h0 : b0 < 256) (h1 : b1 < 256)
    (h2 : b2 < 256) (h3 : b3 < 256) (h4 : b4 < 256) (h5 : b5 < 256) :
    toSigned 64 ((if 128 ≤ b0 % 256 then 65535 else 0) * 2 ^ 48 +
        beNat [b0, b1, b2, b3, b4, b5]) =
      toSigned 48 (beNat [b0, b1, b2, b3, b4, b5]) := by
  have hb : beNat [b0, b1, b2, b3, b4, b5] =
      ((((b0 * 256 + b1) * 256 + b2) * 256 + b3) * 256 + b4) * 256 + b5 := by
    simp [beNat]
  rw [hb, Nat.mod_eq_of_lt h0]
  unfold toSigned
  split_ifs <;> omega

theorem exists_cons_of_le (n : Nat) (body : List Nat) (h : n + 1 ≤ body.length) :
    ∃ x xs, body = x :: xs ∧ n ≤ xs.length := by
  cases body with
  | nil => simp at h
  | cons x xs =>
    refine ⟨x, xs, rfl, ?_⟩
    simp only [List.length_cons] at h
    omega

/-! # Claim theorems -/

/-- C5 counterexample: the value comparator is not transitive on the
code as the claim states it for every value — a NaN float compares
equal to everything of numeric rank, so `1.0 = NaN` and `NaN = 2.0`
hold while `1.0 < 2.0`. -/
theorem C5_counterexample :
    compareValues (.real (.finite 1 0)) (.real .nan) = 0 ∧
    compareValues (.real .nan) (.real (.finite 2 0)) = 0 ∧
    compareValues (.real (.finite 1 0)) (.real (.finite 2 0)) = -1 := by
  decide

/-- C5 (amended): `compareValues` is reflexive and sign-antisymmetric
on all values; it is transitive on NaN-free values; `CompareRecords`
is its lexicographic extension: position-wise with the first non-zero
comparison decisive, the shorter record smaller on an all-equal shared
prefix, and zero exactly for records of equal length whose positions
all compare equal. -/
theorem C5_comparator_order :
    (∀ v : Value, compareValues v v = 0) ∧
    (∀ v w : Value, compareValues w v = -compareValues v w) ∧
    (∀ a b c : Value, valueNoNaN a = true → valueNoNaN b = true →
      valueNoNaN c = true →
      (compareValues a b ≤ 0 → compareValues b c ≤ 0 → compareValues a c ≤ 0) ∧
      (compareValues a b = 0 → compareValues b c = 0 → compareValues a c = 0)) ∧
    (∀ (x y : Value) (as bs : Rec),
      CompareRecords (x :: as) (y :: bs) =
        if compareValues x y = 0 then CompareRecords as bs else compareValues x y) ∧
    (∀ a b : Rec, a.length < b.length →
      (∀ i, i < a.length → compareValues (a.getD i .null) (b.getD i .null) = 0) →
      CompareRecords a b = -1) ∧
    (∀ a b : Rec, CompareRecords a b = 0 ↔ (a.length = b.length ∧
      ∀ i, i < a.length → compareValues (a.getD i .null) (b.getD i .null) = 0)) := by
  refine ⟨compareValues_refl, compareValues_antisym, ?_, ?_, ?_, ?_⟩
  · intro a b c ha hb hc
    exact ⟨fun h1 h2 => compareValues_trans_le a b c ha hb hc h1 h2,
      fun h1 h2 => compareValues_trans_eq a b c ha hb hc h1 h2⟩
  · intro x y as bs
    rfl
  · intro a b hlen hpre
    exact CompareRecords_shorter a b hlen hpre
  · intro a b
    exact CompareRecords_eq_zero_iff a b

/-- C5 witness: the amended comparator laws applied at concrete
values. -/
theorem C5_witness :
    compareValues (.int 5) (.int 5) = 0 ∧
    compareValues (.null) (.int 1) = -compareValues (.int 1) (.null) ∧
    compareValues (.int 1) (.int 3) ≤ 0 ∧
    CompareRecords [.int 1] [.int 1, .int 2] = -1 := by
  refine ⟨C5_comparator_order.1 (.int 5), C5_comparator_order.2.1 (.int 1) (.null),
    ?_, ?_⟩
  · exact (C5_comparator_order.2.2.1 (.int 1) (.int 2) (.int 3) (by decide)
      (by decide) (by decide)).1 (by decide) (by decide)
  · exact C5_comparator_order.2.2.2.2.1 [.int 1] [.int 1, .int 2] (by decide)
      (by decide)

/-- C6 counterexample: the comparator does not order large integers as
real numbers — both operands are converted to `float64` first, so
`2^53` and `2^53 + 1` compare equal although they differ. -/
theorem C6_counterexample :
    compareValues (.int 9007199254740992) (.int 9007199254740993) = 0 ∧
    (9007199254740992 : Int) ≠ 9007199254740993 := by
  decide

/-- C6 (amended): numeric comparison is performed on the values after
conversion to IEEE-754 binary64 (`float64(int64)` rounds to nearest,
ties to even): an integer compares equal to a float exactly when its
converted double equals the float's value, and for magnitudes up to
`2^53` the conversion is exact, so there the ordering agrees with the
real numbers. -/
theorem C6_numeric_compare :
    (∀ a b : Int, compareValues (.int a) (.int b) =
      cmpF64 (.finite (f64ofInt a) 0) (.finite (f64ofInt b) 0)) ∧
    (∀ a m e : Int,
      (compareValues (.int a) (.real (.finite m e)) = 0 ↔
        dyVal (f64ofInt a) 0 = dyVal m e) ∧
      (compareValues (.int a) (.real (.finite m e)) < 0 ↔
        dyVal (f64ofInt a) 0 < dyVal m e)) ∧
    (∀ a b : Int, compareValues (.int a) (.int b) = 0 ↔
      dyVal (f64ofInt a) 0 = dyVal (f64ofInt b) 0) ∧
    (∀ a : Int, a.natAbs ≤ 2 ^ 53 → f64ofInt a = a) ∧
    (∀ a b : Int, a.natAbs ≤ 2 ^ 53 → b.natAbs ≤ 2 ^ 53 →
      (compareValues (.int a) (.int b) < 0 ↔ a < b) ∧
      (compareValues (.int a) (.int b) = 0 ↔ a = b)) := by
  refine ⟨?_, ?_, ?_, f64ofInt_exact, ?_⟩
  · intro a b
    exact compareValues_num (.int a) (.int b) rfl rfl
  · intro a m e
    rw [compareValues_num (.int a) (.real (.finite m e)) rfl rfl]
    exact ⟨cmpF64_fin_eq_iff _ _ _ _, cmpF64_fin_lt_iff _ _ _ _⟩
  · intro a b
    rw [compareValues_num (.int a) (.int b) rfl rfl]
    exact cmpF64_fin_eq_iff _ _ _ _
  · intro a b ha hb
    rw [compareValues_num (.int a) (.int b) rfl rfl]
    show (cmpF64 (.finite (f64ofInt a) 0) (.finite (f64ofInt b) 0) < 0 ↔ a < b) ∧
      (cmpF64 (.finite (f64ofInt a) 0) (.finite (f64ofInt b) 0) = 0 ↔ a = b)
    rw [f64ofInt_exact a ha, f64ofInt_exact b hb]
    constructor
    · rw [cmpF64_fin_lt_iff, dyVal_e_zero, dyVal_e_zero]
      exact_mod_cast Iff.rfl
    · rw [cmpF64_fin_eq_iff, dyVal_e_zero, dyVal_e_zero]
      exact_mod_cast Iff.rfl

/-- C6 witness: the amended numeric-comparison laws at concrete
inputs. -/
theorem C6_witness :
    f64ofInt 42 = 42 ∧
    (compareValues (.int 3) (.int 4) < 0 ↔ (3 : Int) < 4) ∧
    (compareValues (.int 5) (.real (.finite 5 0)) = 0 ↔
      dyVal (f64ofInt 5) 0 = dyVal 5 0) := by
  refine ⟨C6_numeric_compare.2.2.2.1 42 (by decide), ?_, ?_⟩
  · exact (C6_numeric_compare.2.2.2.2 3 4 (by decide) (by decide)).1
  · exact (C6_numeric_compare.2.1 5 5 0).1

/-- C8: `readVarint` consumes at most `min 9 (length data)` bytes; it
stops after byte `k < 8` when that byte's high bit is clear, folding
seven payload bits per byte (big-endian first); when the first eight
bytes all have the high bit set it consumes a ninth byte whole (all
eight bits); when the data runs out early it returns what it folded;
nine `0xff` bytes decode to `-1` in nine bytes. -/
theorem C8_readVarint :
    (∀ data : List Nat, (readVarint data).2 ≤ min 9 data.length) ∧
    (∀ (data : List Nat) (k : Nat), k < 8 →
      (∀ j, j < k → 128 ≤ data.getD j 0 % 256) → k < data.length →
      data.getD k 0 % 256 < 128 →
      readVarint data = (toSigned 64 (varint7Fold (data.take (k + 1))), k + 1)) ∧
    (∀ data : List Nat, (∀ j, j < 8 → 128 ≤ data.getD j 0 % 256) →
      8 < data.length →
      readVarint data =
        (toSigned 64 ((varint7Fold (data.take 8) * 256 + data.getD 8 0 % 256) %
          2 ^ 64), 9)) ∧
    (∀ data : List Nat, data.length ≤ 8 → (∀ b ∈ data, 128 ≤ b % 256) →
      readVarint data = (toSigned 64 (varint7Fold data), data.length)) ∧
    readVarint (List.replicate 9 255) = (-1, 9) := by
  refine ⟨readVarint_consumed_le, ?_, ?_, ?_, by decide⟩
  · intro data k hk hhigh hlen hstop
    have h : rvGo 9 data 0 = ((data.take (k + 1)).foldl f7step 0, k + 1) :=
      rvGo_stops k data 9 0 hk (by omega) hhigh hlen hstop
    simp only [readVarint, varint7Fold]
    rw [h]
  · intro data hhigh hlen
    have h : rvGo 9 data 0 =
        (((data.take 8).foldl f7step 0 * 256 + data.getD 8 0 % 256) % 2 ^ 64, 9) :=
      rvGo_nine 8 data 0 (by omega) hhigh hlen
    simp only [readVarint, varint7Fold]
    rw [h]
  · intro data hlen hhigh
    have h : rvGo 9 data 0 = (data.foldl f7step 0, data.length) :=
      rvGo_exhaust data 9 0 (by omega) hhigh
    simp only [readVarint, varint7Fold]
    rw [h]

/-- C8 witness: the stop-rule case at a concrete two-byte varint. -/
theorem C8_witness :
    readVarint [129, 112] = (toSigned 64 (varint7Fold (List.take 2 [129, 112])), 2) :=
  C8_readVarint.2.1 [129, 112] 1 (by decide) (by decide) (by decide) (by decide)

/-- C9: on a 100-byte header whose page-size field holds the raw
big-endian bytes `00 01`, `ParseHeader` succeeds and stores
`PageSize = 1`; it never maps the on-disk value `1` to `65536` as the
SQLite format (and the field's own doc comment) require. -/
theorem C9_pageSize_raw1 :
    ParseHeader hdrRaw1 = .ok ⟨1, 0, 0, 0, 0, 0, 0, 0, 0, 0⟩ ∧
    ∀ h : Header, ParseHeader hdrRaw1 = .ok h → h.pageSize ≠ 65536 := by
  constructor
  · decide
  · intro h hh
    have : h = ⟨1, 0, 0, 0, 0, 0, 0, 0, 0, 0⟩ := by
      have h1 : ParseHeader hdrRaw1 = .ok ⟨1, 0, 0, 0, 0, 0, 0, 0, 0, 0⟩ := by decide
      rw [h1] at hh
      cases hh
      rfl
    rw [this]
    decide

/-- C10 counterexample: on the single byte `0x00` the decoded header
length (0) is smaller than the varint's own byte count (1), so the
source's `data[n:headerSize]` slice expression panics instead of
returning a record or an error. -/
theorem C10_counterexample : ParseRecord [0] = .panic := by decide

/-- C10 (amended): `ParseRecord` panics exactly when the decoded
header length fits in the payload but is smaller than the header
varint's own byte count; on every input it either panics, returns an
error, or returns a record; the empty payload decodes to the empty
record. -/
theorem C10_parseRecord_outcomes :
    (∀ data : List Nat,
      (ParseRecord data = .panic ↔
        (readVarint data).1 ≤ (data.length : Int) ∧
          (readVarint data).1 < ((readVarint data).2 : Int)) ∧
      (ParseRecord data = .panic ∨ (∃ e, ParseRecord data = .err e) ∨
        ∃ r, ParseRecord data = .ok r)) ∧
    ParseRecord [] = .ok [] := by
  refine ⟨fun data => ⟨?_, ?_⟩, by decide⟩
  · constructor
    · intro hc
      simp only [ParseRecord] at hc
      split_ifs at hc with h1 h2
      · exact ⟨by omega, h2⟩
      · split at hc <;> cases hc
    · rintro ⟨ha, hb⟩
      simp only [ParseRecord]
      rw [if_neg (show ¬ (data.length : Int) < (readVarint data).1 by omega),
        if_pos hb]
  · simp only [ParseRecord]
    split_ifs with h1 h2
    · exact Or.inr (Or.inl ⟨_, rfl⟩)
    · exact Or.inl rfl
    · split
      · exact Or.inr (Or.inl ⟨_, rfl⟩)
      · exact Or.inr (Or.inr ⟨_, rfl⟩)

/-- C3: on a valid table B-tree, a full scan with a consumer that
always keeps pulling emits exactly the adjusted records of the leaf
cells in in-order (depth-first left-to-right) traversal order, and the
rowIds appear in strictly ascending order. -/
theorem C3_scan_inorder (tbl : TableInfo) (t : BPage)
    (hv : tableValid t = true) :
    tableScan tbl alwaysPull t =
      (tableCellsP t).map (fun c => (some (adjustRecord tbl c), none)) ∧
    List.Chain' (· < ·) (tableRowIds t) := by
  have hv' : tableValidLB none t = true := hv
  constructor
  · have h := tableScanP_alwaysPull t tbl none [] hv'
    simp only [tableScan, h, List.nil_append]
  · exact validChainP t none hv'

/-- C3 witness: the scan law applied to a concrete two-leaf tree. -/
theorem C3_witness :
    tableScan ⟨-1⟩ alwaysPull
        (.interiorTable (.cons (.leafTable [⟨1, [.int 10]⟩]) 1
          (.last (.leafTable [⟨2, [.int 20]⟩])))) =
      (tableCellsP (.interiorTable (.cons (.leafTable [⟨1, [.int 10]⟩]) 1
          (.last (.leafTable [⟨2, [.int 20]⟩]))))).map
        (fun c => (some (adjustRecord ⟨-1⟩ c), none)) ∧
    List.Chain' (· < ·) (tableRowIds (.interiorTable
      (.cons (.leafTable [⟨1, [.int 10]⟩]) 1
        (.last (.leafTable [⟨2, [.int 20]⟩]))))) :=
  C3_scan_inorder ⟨-1⟩ _ (by decide)

/-- C4 counterexample: `tableScanPage` does `return yield(nil, err)`
on a page of unexpected kind, so when the consumer answers the error
item with `true` the scan continues into later subtrees: here an
adjusted record is emitted after the error item, and the emission is
not error-terminal. -/
theorem C4_counterexample :
    tableScan ⟨-1⟩ alwaysPull
        (.interiorTable (.cons (.leafIndex []) 5
          (.last (.leafTable [⟨7, [.null]⟩])))) =
      [(none, some .unexpectedPageType), (some [.int 7, .null], none)] ∧
    errorsTerminalB (tableScan ⟨-1⟩ alwaysPull
        (.interiorTable (.cons (.leafIndex []) 5
          (.last (.leafTable [⟨7, [.null]⟩]))))) = false := by
  decide

/-- C4 (amended): an error item is always the last item emitted by
`TableSeek`, by `IndexSeek`, and by `Filter`; but not by `TableScan`,
where a pulled `unexpectedPageType` error item may be followed by
records from later subtrees. -/
theorem C4_errors_terminal :
    (∀ (t : BPage) (tbl : TableInfo) (rid : Int),
      errorsTerminalB (tableSeekP tbl rid t) = true) ∧
    (∀ (t : BPage) (key : Rec),
      errorsTerminalB (indexSeek key alwaysPull t) = true) ∧
    (∀ (input : List Item) (pred : Rec → Bool × Option Err) (c : Consumer),
      errorsTerminalB (filterGo pred c input []) = true) ∧
    ¬ (∀ (t : BPage) (tbl : TableInfo),
        errorsTerminalB (tableScan tbl alwaysPull t) = true) := by
  refine ⟨fun t tbl rid => tableSeekP_errsTerminal t tbl rid, ?_, ?_, ?_⟩
  · intro t key
    obtain ⟨items, he, ht⟩ := indexSeekP_errsTerminal t key alwaysPull []
    show errorsTerminalB (indexSeekP key alwaysPull t []) = true
    rw [he]
    simpa using ht
  · intro input pred c
    obtain ⟨items, he, ht⟩ := filterGo_errsTerminal input pred c []
    rw [he]
    simpa using ht
  · intro hall
    have := hall (.interiorTable (.cons (.leafIndex []) 5
      (.last (.leafTable [⟨7, [.null]⟩])))) ⟨-1⟩
    exact absurd this (by decide)

/-- C9 witness: the header equality applied to extract the concrete
page size. -/
theorem C9_witness : (⟨1, 0, 0, 0, 0, 0, 0, 0, 0, 0⟩ : Header).pageSize ≠ 65536 :=
  C9_pageSize_raw1.2 ⟨1, 0, 0, 0, 0, 0, 0, 0, 0, 0⟩ (by decide)

/-- C10 witness: the panic characterization applied at a concrete
two-byte payload. -/
theorem C10_witness : ParseRecord [0, 153] = .panic :=
  (C10_parseRecord_outcomes.1 [0, 153]).1.mpr (by decide)

/-- C2 counterexample: two divergences from the claim on valid index
trees.  First, the leaf loop only skips payloads strictly shorter than
the key, so a payload of length exactly `len(key)` is emitted, though
the claim admits only payloads at least one element longer.  Second,
the interior descent visits a single subtree, so a matching payload
(`[5, 8]` for key `[5]`) in a later leaf of a duplicate-spanning tree
is never emitted, though the claim requires all matches. -/
theorem C2_counterexample :
    (indexValid (.leafIndex [[.int 5, .int 7]]) = true ∧
      indexSeek [.int 5, .int 7] alwaysPull (.leafIndex [[.int 5, .int 7]]) =
        [(some [.int 5, .int 7], none)] ∧
      ¬ ([.int 5, .int 7] : Rec).length + 1 ≤ ([.int 5, .int 7] : Rec).length) ∧
    (indexValid (.interiorIndex (.cons (.leafIndex [[.int 5, .int 7]])
        [.int 5, .int 7] (.last (.leafIndex [[.int 5, .int 8]])))) = true ∧
      [.int 5, .int 8] ∈ indexCellsP (.interiorIndex
        (.cons (.leafIndex [[.int 5, .int 7]])
          [.int 5, .int 7] (.last (.leafIndex [[.int 5, .int 8]])))) ∧
      CompareRecords (([.int 5, .int 8] : Rec).take 1) [.int 5] = 0 ∧
      ([.int 5] : Rec).length < ([.int 5, .int 8] : Rec).length ∧
      indexSeek [.int 5] alwaysPull (.interiorIndex
        (.cons (.leafIndex [[.int 5, .int 7]])
          [.int 5, .int 7] (.last (.leafIndex [[.int 5, .int 8]])))) =
        [(some [.int 5, .int 7], none)]) := by
  decide

/-- C2 (amended): every record emitted by `IndexSeek` on any tree has
length at least `len(key)` and its `len(key)`-prefix compares equal to
the key (soundness); and on a single leaf-index page of NaN-free,
comparator-sorted payloads all of length at least `len(key)`, the
always-pulling emission is exactly the matching payloads in cell
order. -/
theorem C2_index_seek (key : Rec) :
    (∀ (t : BPage) (c : Consumer) (acc : List Item),
      ∃ items : List Item, indexSeekP key c t acc = acc ++ items ∧
        ∀ it ∈ items, ∀ p, it.1 = some p →
          key.length ≤ p.length ∧ CompareRecords (p.take key.length) key = 0) ∧
    (∀ cells : List Rec, (∀ p ∈ cells, key.length ≤ p.length) →
      (∀ p ∈ cells, recNoNaN p = true) → recNoNaN key = true →
      recsSortedB cells = true →
      indexSeek key alwaysPull (.leafIndex cells) =
        (cells.filter
          (fun p => decide (CompareRecords (p.take key.length) key = 0))).map
          (fun p => (some p, none))) :=
  ⟨fun t c acc => indexSeekP_sound t key c acc,
    fun cells h1 h2 h3 h4 => indexSeek_leaf_exact key cells h1 h2 h3 h4⟩

/-- C2 witness: single-leaf exactness at a concrete sorted page. -/
theorem C2_witness :
    indexSeek [.int 5] alwaysPull (.leafIndex [[.int 3, .int 1], [.int 5, .int 9]]) =
      (([[.int 3, .int 1], [.int 5, .int 9]] : List Rec).filter
        (fun p => decide (CompareRecords (p.take ([.int 5] : Rec).length) [.int 5] = 0))).map
        (fun p => (some p, none)) :=
  (C2_index_seek [.int 5]).2 [[.int 3, .int 1], [.int 5, .int 9]]
    (by decide) (by decide) (by decide) (by decide)

/-- C1: on a valid table B-tree, with a well-formed table descriptor
(alias index `-1` or non-negative and within each record), point seek:
finds nothing (empty emission / `ErrNotFound`) when no leaf cell
carries the target rowId; emits exactly the matched cell's adjusted
record when one does, with `Find` returning the corresponding row and
the alias column (when non-negative) holding the cell's rowId; and on
an interior-table root descends to the child at the smallest cell
index whose key is `>= rid` (right-most when none), every earlier key
being `< rid`. -/
theorem C1_point_seek (tbl : TableInfo) (rid : Int) (t : BPage)
    (hv : tableValid t = true)
    (halias : tbl.rowIDColumnIndex = -1 ∨ 0 ≤ tbl.rowIDColumnIndex)
    (hbound : ∀ c ∈ tableCellsP t, 0 ≤ tbl.rowIDColumnIndex →
      tbl.rowIDColumnIndex.toNat < c.record.length) :
    ((∀ c ∈ tableCellsP t, c.rowId ≠ rid) →
      tableSeekP tbl rid t = [] ∧ FindP tbl rid t = .error .notFound) ∧
    (∀ c ∈ tableCellsP t, c.rowId = rid →
      tableSeekP tbl rid t = [(some (adjustRecord tbl c), none)] ∧
      FindP tbl rid t = .ok (rid,
        if 0 ≤ tbl.rowIDColumnIndex then
          c.record.set tbl.rowIDColumnIndex.toNat (.int c.rowId)
        else c.record) ∧
      (0 ≤ tbl.rowIDColumnIndex →
        (adjustRecord tbl c).getD tbl.rowIDColumnIndex.toNat .null = .int rid)) ∧
    (∀ node : TNode, t = .interiorTable node →
      tableSeekP tbl rid t = tableSeekP tbl rid (selectTN node
        (goSearch node.keys.length (fun k => decide (rid ≤ node.keys.getD k 0)))) ∧
      (∀ p, p < goSearch node.keys.length
          (fun k => decide (rid ≤ node.keys.getD k 0)) →
        node.keys.getD p 0 < rid) ∧
      (goSearch node.keys.length (fun k => decide (rid ≤ node.keys.getD k 0)) <
          node.keys.length →
        rid ≤ node.keys.getD (goSearch node.keys.length
          (fun k => decide (rid ≤ node.keys.getD k 0))) 0)) := by
  have hv' : tableValidLB none t = true := hv
  have hmain := seek_spec tbl rid (sizeOf t) t le_rfl none hv'
  refine ⟨hmain.1, ?_, ?_⟩
  · intro c hc hcr
    obtain ⟨hseek, hfind⟩ := hmain.2 c hc hcr
    refine ⟨hseek, ?_, ?_⟩
    · rw [hfind, ← hcr]
      rcases halias with h | h
      · rw [if_neg (by simp [h]), if_neg (by omega)]
      · have hlen := hbound c hc h
        rw [if_pos ⟨by omega, by omega⟩, if_pos h]
    · intro hpos
      rw [← hcr]
      exact adjustRecord_getD tbl c hpos (hbound c hc hpos)
  · rintro node rfl
    have hvn : tnodeValidLB none node = true := hv'
    have hspec := goSearch_spec (fun k => decide (rid ≤ node.keys.getD k 0))
      node.keys.length (keysSeek_mono rid node none hvn)
    refine ⟨?_, ?_, ?_⟩
    · simp only [tableSeekP]
      exact tsAt_eq tbl rid node _
    · intro p hp
      have hb : decide (rid ≤ node.keys.getD p 0) = false := hspec.2.1 p hp
      simp only [decide_eq_false_iff_not, not_le] at hb
      exact hb
    · intro hlt
      have hb : decide (rid ≤ node.keys.getD (goSearch node.keys.length
          (fun k => decide (rid ≤ node.keys.getD k 0))) 0) = true := hspec.2.2 hlt
      simpa using hb

/-- C1 witness: the match case at a concrete two-leaf tree with alias
column 0. -/
theorem C1_witness :
    tableSeekP ⟨0⟩ 3 (.interiorTable (.cons (.leafTable [⟨1, [.null]⟩]) 1
        (.last (.leafTable [⟨3, [.null]⟩])))) =
      [(some (adjustRecord ⟨0⟩ ⟨3, [.null]⟩), none)] ∧
    FindP ⟨0⟩ 3 (.interiorTable (.cons (.leafTable [⟨1, [.null]⟩]) 1
        (.last (.leafTable [⟨3, [.null]⟩])))) =
      .ok (3, if 0 ≤ (⟨0⟩ : TableInfo).rowIDColumnIndex then
        ([.null] : Rec).set (0 : Int).toNat (.int 3) else [.null]) ∧
    (0 ≤ (⟨0⟩ : TableInfo).rowIDColumnIndex →
      (adjustRecord ⟨0⟩ ⟨3, [.null]⟩).getD (0 : Int).toNat .null = .int 3) :=
  (C1_point_seek ⟨0⟩ 3 (.interiorTable (.cons (.leafTable [⟨1, [.null]⟩]) 1
      (.last (.leafTable [⟨3, [.null]⟩]))))
    (by decide) (Or.inr (by decide)) (by decide)).2.1 ⟨3, [.null]⟩ (by decide) rfl

/-- C7: `serialTypeToValue` follows the section 4.2 table: code 0 is
NULL (0 bytes); codes 1-6 are sign-extended big-endian integers of 1,
2, 3, 4, 6, 8 bytes; code 7 is a binary64 of 8 bytes; codes 8 and 9
are the constants 0 and 1 (0 bytes); even codes >= 12 are blobs of
`(N-12)/2` bytes; odd codes >= 13 are texts of `(N-13)/2` bytes;
codes 10 and 11 fail as unsupported; short bodies fail with
insufficient data. -/
theorem C7_serial_table :
    (∀ body : List Nat, serialTypeToValue 0 body = .ok (.null, 0)) ∧
    (∀ body : List Nat, 1 ≤ body.length →
      serialTypeToValue 1 body = .ok (.int (signExt 1 body), 1)) ∧
    (∀ body : List Nat, 2 ≤ body.length →
      serialTypeToValue 2 body = .ok (.int (signExt 2 body), 2)) ∧
    (∀ body : List Nat, 3 ≤ body.length → (∀ b ∈ body, b < 256) →
      serialTypeToValue 3 body = .ok (.int (signExt 3 body), 3)) ∧
    (∀ body : List Nat, 4 ≤ body.length →
      serialTypeToValue 4 body = .ok (.int (signExt 4 body), 4)) ∧
    (∀ body : List Nat, 6 ≤ body.length → (∀ b ∈ body, b < 256) →
      serialTypeToValue 5 body = .ok (.int (signExt 6 body), 6)) ∧
    (∀ body : List Nat, 8 ≤ body.length →
      serialTypeToValue 6 body = .ok (.int (signExt 8 body), 8)) ∧
    (∀ body : List Nat, 8 ≤ body.length →
      serialTypeToValue 7 body = .ok (.real (f64frombits (beNat (body.take 8))), 8)) ∧
    (∀ body : List Nat, serialTypeToValue 8 body = .ok (.int 0, 0)) ∧
    (∀ body : List Nat, serialTypeToValue 9 body = .ok (.int 1, 0)) ∧
    (∀ body : List Nat,
      serialTypeToValue 10 body = .error (.unsupportedSerialType 10) ∧
      serialTypeToValue 11 body = .error (.unsupportedSerialType 11)) ∧
    (∀ (st : Int) (body : List Nat), 12 ≤ st → st % 2 = 0 →
      (((st - 12) / 2).toNat ≤ body.length →
        serialTypeToValue st body =
          .ok (.blob (body.take ((st - 12) / 2).toNat), ((st - 12) / 2).toNat)) ∧
      (body.length < ((st - 12) / 2).toNat →
        serialTypeToValue st body = .error .insufficientData)) ∧
    (∀ (st : Int) (body : List Nat), 13 ≤ st → st % 2 = 1 →
      (((st - 13) / 2).toNat ≤ body.length →
        serialTypeToValue st body =
          .ok (.text (body.take ((st - 13) / 2).toNat), ((st - 13) / 2).toNat)) ∧
      (body.length < ((st - 13) / 2).toNat →
        serialTypeToValue st body = .error .insufficientData)) ∧
    (∀ body : List Nat, body.length < 1 →
      serialTypeToValue 1 body = .error .insufficientData) ∧
    (∀ body : List Nat, body.length < 2 →
      serialTypeToValue 2 body = .error .insufficientData) ∧
    (∀ body : List Nat, body.length < 3 →
      serialTypeToValue 3 body = .error .insufficientData) ∧
    (∀ body : List Nat, body.length < 4 →
      serialTypeToValue 4 body = .error .insufficientData) ∧
    (∀ body : List Nat, body.length < 6 →
      serialTypeToValue 5 body = .error .insufficientData) ∧
    (∀ body : List Nat, body.length < 8 →
      serialTypeToValue 6 body = .error .insufficientData ∧
      serialTypeToValue 7 body = .error .insufficientData) := by
  refine ⟨fun _ => rfl, ?_, ?_, ?_, ?_, ?_, ?_, ?_, fun _ => rfl, fun _ => rfl,
    fun _ => ⟨rfl, rfl⟩, ?_, ?_, ?_, ?_, ?_, ?_, ?_, ?_⟩
  · intro body h
    obtain ⟨b0, body, rfl, h⟩ := exists_cons_of_le 0 body (by omega)
    rfl
  · intro body h
    obtain ⟨b0, body, rfl, h⟩ := exists_cons_of_le 1 body (by omega)
    obtain ⟨b1, body, rfl, h⟩ := exists_cons_of_le 0 body (by omega)
    rfl
  · intro body h hb
    obtain ⟨b0, body, rfl, h⟩ := exists_cons_of_le 2 body (by omega)
    obtain ⟨b1, body, rfl, h⟩ := exists_cons_of_le 1 body (by omega)
    obtain ⟨b2, body, rfl, h⟩ := exists_cons_of_le 0 body (by omega)
    have h0 := hb b0 (by simp)
    have h1 := hb b1 (by simp)
    have h2 := hb b2 (by simp)
    have e : serialTypeToValue 3 (b0 :: b1 :: b2 :: body) =
        .ok (.int (toSigned 32 ((if 128 ≤ b0 % 256 then 255 else 0) * 2 ^ 24 +
          beNat [b0, b1, b2])), 3) := rfl
    rw [e, toSigned_pad3 b0 b1 b2 h0 h1 h2]
    rfl
  · intro body h
    obtain ⟨b0, body, rfl, h⟩ := exists_cons_of_le 3 body (by omega)
    obtain ⟨b1, body, rfl, h⟩ := exists_cons_of_le 2 body (by omega)
    obtain ⟨b2, body, rfl, h⟩ := exists_cons_of_le 1 body (by omega)
    obtain ⟨b3, body, rfl, h⟩ := exists_cons_of_le 0 body (by omega)
    rfl
  · intro body h hb
    obtain ⟨b0, body, rfl, h⟩ := exists_cons_of_le 5 body (by omega)
    obtain ⟨b1, body, rfl, h⟩ := exists_cons_of_le 4 body (by omega)
    obtain ⟨b2, body, rfl, h⟩ := exists_cons_of_le 3 body (by omega)
    obtain ⟨b3, body, rfl, h⟩ := exists_cons_of_le 2 body (by omega)
    obtain ⟨b4, body, rfl, h⟩ := exists_cons_of_le 1 body (by omega)
    obtain ⟨b5, body, rfl, h⟩ := exists_cons_of_le 0 body (by omega)
    have h0 := hb b0 (by simp)
    have h1 := hb b1 (by simp)
    have h2 := hb b2 (by simp)
    have h3 := hb b3 (by simp)
    have h4 := hb b4 (by simp)
    have h5 := hb b5 (by simp)
    have e : serialTypeToValue 5 (b0 :: b1 :: b2 :: b3 :: b4 :: b5 :: body) =
        .ok (.int (toSigned 64 ((if 128 ≤ b0 % 256 then 65535 else 0) * 2 ^ 48 +
          beNat [b0, b1, b2, b3, b4, b5])), 6) := rfl
    rw [e, toSigned_pad5 b0 b1 b2 b3 b4 b5 h0 h1 h2 h3 h4 h5]
    rfl
  · intro body h
    obtain ⟨b0, body, rfl, h⟩ := exists_cons_of_le 7 body (by omega)
    obtain ⟨b1, body, rfl, h⟩ := exists_cons_of_le 6 body (by omega)
    obtain ⟨b2, body, rfl, h⟩ := exists_cons_of_le 5 body (by omega)
    obtain ⟨b3, body, rfl, h⟩ := exists_cons_of_le 4 body (by omega)
    obtain ⟨b4, body, rfl, h⟩ := exists_cons_of_le 3 body (by omega)
    obtain ⟨b5, body, rfl, h⟩ := exists_cons_of_le 2 body (by omega)
    obtain ⟨b6, body, rfl, h⟩ := exists_cons_of_le 1 body (by omega)
    obtain ⟨b7, body, rfl, h⟩ := exists_cons_of_le 0 body (by omega)
    rfl
  · intro body h
    obtain ⟨b0, body, rfl, h⟩ := exists_cons_of_le 7 body (by omega)
    obtain ⟨b1, body, rfl, h⟩ := exists_cons_of_le 6 body (by omega)
    obtain ⟨b2, body, rfl, h⟩ := exists_cons_of_le 5 body (by omega)
    obtain ⟨b3, body, rfl, h⟩ := exists_cons_of_le 4 body (by omega)
    obtain ⟨b4, body, rfl, h⟩ := exists_cons_of_le 3 body (by omega)
    obtain ⟨b5, body, rfl, h⟩ := exists_cons_of_le 2 body (by omega)
    obtain ⟨b6, body, rfl, h⟩ := exists_cons_of_le 1 body (by omega)
    obtain ⟨b7, body, rfl, h⟩ := exists_cons_of_le 0 body (by omega)
    rfl
  · intro st body h12 heven
    constructor <;> intro hlen <;> simp only [serialTypeToValue]
    · rw [if_pos ⟨h12, heven⟩, if_neg (by omega)]
    · rw [if_pos ⟨h12, heven⟩, if_pos (by omega)]
  · intro st body h13 hodd
    constructor <;> intro hlen <;> simp only [serialTypeToValue]
    · rw [if_neg (by omega), if_pos ⟨h13, hodd⟩, if_neg (by omega)]
    · rw [if_neg (by omega), if_pos ⟨h13, hodd⟩, if_pos (by omega)]
  · intro body h
    rcases body with _ | ⟨b0, rest⟩
    · rfl
    · simp only [List.length_cons] at h
      omega
  · intro body h
    rcases body with _ | ⟨b0, _ | ⟨b1, rest⟩⟩
    · rfl
    · rfl
    · simp only [List.length_cons] at h
      omega
  · intro body h
    rcases body with _ | ⟨b0, _ | ⟨b1, _ | ⟨b2, rest⟩⟩⟩
    · rfl
    · rfl
    · rfl
    · simp only [List.length_cons] at h
      omega
  · intro body h
    rcases body with _ | ⟨b0, _ | ⟨b1, _ | ⟨b2, _ | ⟨b3, rest⟩⟩⟩⟩
    · rfl
    · rfl
    · rfl
    · rfl
    · simp only [List.length_cons] at h
      omega
  · intro body h
    rcases body with _ | ⟨b0, _ | ⟨b1, _ | ⟨b2, _ | ⟨b3, _ | ⟨b4, _ | ⟨b5, rest⟩⟩⟩⟩⟩⟩
    · rfl
    · rfl
    · rfl
    · rfl
    · rfl
    · rfl
    · simp only [List.length_cons] at h
      omega
  · intro body h
    rcases body with _ | ⟨b0, _ | ⟨b1, _ | ⟨b2, _ | ⟨b3, _ | ⟨b4, _ | ⟨b5,
      _ | ⟨b6, _ | ⟨b7, rest⟩⟩⟩⟩⟩⟩⟩⟩
    · exact ⟨rfl, rfl⟩
    · exact ⟨rfl, rfl⟩
    · exact ⟨rfl, rfl⟩
    · exact ⟨rfl, rfl⟩
    · exact ⟨rfl, rfl⟩
    · exact ⟨rfl, rfl⟩
    · exact ⟨rfl, rfl⟩
    · exact ⟨rfl, rfl⟩
    · simp only [List.length_cons] at h
      omega

/-- C7 witness: table rows evaluated at concrete bodies. -/
theorem C7_witness :
    serialTypeToValue 3 [255, 0, 1, 9] = .ok (.int (signExt 3 [255, 0, 1, 9]), 3) ∧
    serialTypeToValue 5 [255, 0, 0, 0, 0, 2] =
      .ok (.int (signExt 6 [255, 0, 0, 0, 0, 2]), 6) ∧
    serialTypeToValue 18 [1, 2, 3] = .ok (.blob [1, 2, 3], 3) ∧
    serialTypeToValue 19 [104, 105, 106] = .ok (.text [104, 105, 106], 3) ∧
    serialTypeToValue 2 [7] = .error .insufficientData := by
  refine ⟨C7_serial_table.2.2.2.1 [255, 0, 1, 9] (by decide) (by decide),
    C7_serial_table.2.2.2.2.2.1 [255, 0, 0, 0, 0, 2] (by decide) (by decide),
    ?_, ?_, C7_serial_table.2.2.2.2.2.2.2.2.2.2.2.2.2.2.1 [7] (by decide)⟩
  · exact (C7_serial_table.2.2.2.2.2.2.2.2.2.2.2.1 18 [1, 2, 3] (by decide)
      (by decide)).1 (by decide)
  · exact (C7_serial_table.2.2.2.2.2.2.2.2.2.2.2.2.1 19 [104, 105, 106] (by decide)
      (by decide)).1 (by decide)

end Golite
